import Mathlib

/-!
# Multiplayer coin collector

A shallow embedding of the authoritative game server (`server.js`) and of the
snapshot handlers and the render-step smoothing of the browser client
(`client.js`), followed by the properties proved about them.

Conventions of the embedding.

* The module-level variables of `server.js` (`players`, `stateVersion`,
  `pausedUntil`, `coins`, `nextCoinSpawn`, `nextCoinId`) are the fields of `World`.
  Every handler is a function from the world before to the world after, together
  with the socket.io calls and timers it issues, in program order.
* `players` is a JavaScript object keyed by `socket.id`.  A socket.io id is a
  20-character token, never an integer index, so the object enumerates its keys in
  insertion order: it is a list of entries, first inserted first, the key of an
  entry being its `id` field (line 97 stores the key there and nothing changes it).
* Every entry of `players` is created at lines 96-101 with a `position`, and no
  statement removes it, so `position` is a total field; the guard
  `!p || !p.position` of lines 68 and 165 never fires on such an entry.
* Coordinates, scores, versions, times and the coin counter are integers that stay
  far below 2^53, where JavaScript numbers are exact: they are `Int` or `Nat`.
  A coin id `coin<n>` is represented by the number `n`.
* `Math.random()` returns a fraction in [0,1); `Math.floor(Math.random() * k)` is
  read in exact arithmetic.  `Date.now()` is a parameter of the step that reads it.
* The client interpolates with JavaScript doubles; `Client.interpolate` is the same
  formula over the rationals.
* On the client, `frontendPlayers` and the `players` object of a message are
  tables: lists of keys with their values, in enumeration order.  The keys of an
  object are pairwise distinct; results that need this of a message say so.  A
  participant of a message may lack `position`, `color` or `score`, and may be
  `null`, as the guards and fallbacks of the handlers provide for.  A handler that
  reads `p.position.x` of a participant without `position` raises a `TypeError`,
  which `Client.Handled` records.
-/

namespace Server

/-! ## Game state and constants (lines 12-30) -/

def CANVAS_W : Int := 800
def CANVAS_H : Int := 600
def COIN_RESPAWN_INTERVAL : Nat := 3000
def COIN_RADIUS : Int := 10
def PLAYER_RADIUS : Int := 15
def WIN_SCORE : Nat := 5

/-- The key of a participant: its `socket.id`. -/
abbrev SocketId := Nat

structure Position where
  x : Int
  y : Int
deriving DecidableEq, Repr

/-- An entry of `players` (lines 96-101); `color` is the number that `randomColor`
prints in hexadecimal. -/
structure Player where
  id : SocketId
  color : Int
  position : Position
  score : Nat
deriving DecidableEq, Repr

/-- An element of `coins`: the record built at line 85. -/
structure Coin where
  id : Nat
  x : Int
  y : Int
deriving DecidableEq, Repr

/-- The mutable module-level variables of the server. -/
structure World where
  players : List Player
  stateVersion : Nat
  pausedUntil : Nat
  coins : List Coin
  nextCoinSpawn : Nat
  nextCoinId : Nat
deriving DecidableEq, Repr

/-! ## Randomness -/

/-- One value of `Math.random()`: the fraction `num / den`, which lies in [0,1). -/
structure Draw where
  num : Nat
  den : Nat
  lt_one : num < den

/-- The values that successive calls of `Math.random()` return. -/
structure Rng where
  draw : Nat → Draw

/-- The value the next call of `Math.random()` returns. -/
def Rng.head (g : Rng) : Draw := g.draw 0

/-- The generator after one call. -/
def Rng.tail (g : Rng) : Rng := ⟨fun n => g.draw (n + 1)⟩

/-- The number `Math.floor(r * k)`. -/
def floorMul (r : Draw) (k : Int) : Int := (r.num : Int) * k / (r.den : Int)

/-! ## Messages and timers -/

inductive Event where
  | currentPlayers
  | newPlayer
  | playerDisconnected
  | state
  | gameReset
  | gameOver
deriving DecidableEq, Repr

/-- The data argument of an emit. -/
inductive Payload where
  | snapshot (players : List Player) (coins : List Coin) (version : Nat)
  | player (p : Player)
  | socketId (id : SocketId)
  | winner (id : SocketId)
deriving DecidableEq, Repr

/-- What a timer runs when it fires: an emit on a socket (`some id`) or on `io`
(`none`), or `resetGame`. -/
inductive Callback where
  | emit (target : Option SocketId) (event : Event) (data : Payload)
  | resetGame
deriving DecidableEq, Repr

/-- A call a handler makes to the outside: an emit carried out at once, or a
`setTimeout`.  The data of an emit is recorded as it is at the call.  For an emit
inside a timer this is the argument that the callback holds: the objects `players`
and `coins` it refers to may change before the timer fires, so the results below
use the data of direct emits only and, of delayed ones, their number and event. -/
inductive Effect where
  | emit (target : Option SocketId) (event : Event) (data : Payload)
  | setTimeout (cb : Callback) (delay : Nat)
deriving DecidableEq, Repr

/-- Lines 33-37: `emitWithLag(socketObj, event, data, delay)`. -/
def emitWithLag (socketObj : SocketId) (event : Event) (data : Payload) (delay : Nat) : Effect :=
  .setTimeout (.emit (some socketObj) event data) delay

/-- Lines 38-42: `broadcastWithLag(io, event, data, delay)`. -/
def broadcastWithLag (event : Event) (data : Payload) (delay : Nat) : Effect :=
  .setTimeout (.emit none event data) delay

/-- The default value of the `delay` parameter of the two lag helpers. -/
def defaultLag : Nat := 200

/-- The object `{ players, coins, version: stateVersion }`. -/
def snapshot (s : World) : Payload := .snapshot s.players s.coins s.stateVersion

/-- What a handler returns: the world after it, the calls it made, and the coins it
reported on the console at line 202 (`Scheduled spawn:`). -/
structure Outcome where
  world : World
  effects : List Effect
  spawnLog : List Coin
deriving DecidableEq, Repr

/-! ## Utilities (lines 44-86) -/

/-- Line 46: the number whose hexadecimal digits `randomColor` returns. -/
def randomColor (g : Rng) : Int × Rng :=
  (floorMul g.head 16777215, g.tail)

/-- Lines 48-53. -/
def randomPosition (margin : Int) (g : Rng) : Position × Rng :=
  let x := floorMul g.head (CANVAS_W - 2 * margin) + margin
  let y := floorMul g.tail.head (CANVAS_H - 2 * margin) + margin
  (⟨x, y⟩, g.tail.tail)

/-- Lines 54-60. -/
def randomCoinPosition (g : Rng) : Position × Rng :=
  let margin : Int := 20
  let x := floorMul g.head (CANVAS_W - 2 * margin) + margin
  let y := floorMul g.tail.head (CANVAS_H - 2 * margin) + margin
  (⟨x, y⟩, g.tail.tail)

/-- Lines 65-75: whether some participant is nearer to `c` than the spawn distance. -/
def tooClose (players : List Player) (c : Position) : Bool :=
  players.any fun p =>
    let dx := c.x - p.position.x
    let dy := c.y - p.position.y
    decide (dx * dx + dy * dy < (PLAYER_RADIUS + COIN_RADIUS + 20) ^ 2)

/-- Lines 62-79; the first argument is the number of attempts that remain. -/
def spawnCoinAwayFromPlayers : Nat → List Player → Rng → Position × Rng
  | 0, _, g => randomCoinPosition g
  | n + 1, players, g =>
    let r := randomCoinPosition g
    if tooClose players r.1 then spawnCoinAwayFromPlayers n players r.2 else r

/-- Lines 82-86: the new coin, and the world with `nextCoinId` incremented. -/
def makeNewCoin (s : World) (g : Rng) : Coin × World × Rng :=
  let r := spawnCoinAwayFromPlayers 10 s.players g
  (⟨s.nextCoinId, r.1.x, r.1.y⟩, { s with nextCoinId := s.nextCoinId + 1 }, r.2)

/-! ## The participant table -/

/-- The lookup `players[id]`. -/
def getPlayer : List Player → SocketId → Option Player
  | [], _ => none
  | p :: ps, id => if p.id = id then some p else getPlayer ps id

/-- The assignment `players[p.id] = p`: an existing key keeps its place. -/
def insertPlayer (p : Player) : List Player → List Player
  | [] => [p]
  | q :: qs => if q.id = p.id then p :: qs else q :: insertPlayer p qs

/-- The statement `delete players[id]`. -/
def deletePlayer (id : SocketId) (players : List Player) : List Player :=
  players.filter fun p => p.id ≠ id

/-- An assignment to a field of `players[id]`. -/
def modifyPlayer (id : SocketId) (f : Player → Player) : List Player → List Player
  | [] => []
  | q :: qs => if q.id = id then f q :: qs else q :: modifyPlayer id f qs

/-! ## Connection handling (lines 93-130) -/

/-- Lines 96-106: a socket with id `socketId` connects. -/
def onConnection (s : World) (socketId : SocketId) (g : Rng) : Outcome :=
  let c := randomColor g
  let pos := randomPosition 30 c.2
  let p : Player := { id := socketId, color := c.1, position := pos.1, score := 0 }
  let s1 := { s with players := insertPlayer p s.players }
  { world := s1,
    effects := [emitWithLag socketId .currentPlayers (snapshot s1) defaultLag,
                broadcastWithLag .newPlayer (.player p) defaultLag],
    spawnLog := [] }

/-- Lines 108-112: the socket disconnects. -/
def onDisconnect (s : World) (socketId : SocketId) : Outcome :=
  { world := { s with players := deletePlayer socketId s.players },
    effects := [broadcastWithLag .playerDisconnected (.socketId socketId) defaultLag],
    spawnLog := [] }

/-- Line 121. -/
def speed : Int := 5

/-- Lines 114-129: the socket sends `input` with an object `data` whose field `dir`
is `dir`.  A `dir` that is no string matches no case of the `switch`, as a string
other than the four directions does. -/
def onInput (s : World) (socketId : SocketId) (dir : String) : World :=
  if s.players.length < 2 then s
  else
    match getPlayer s.players socketId with
    | none => s
    | some player =>
      match dir with
      | "up" =>
        let y1 := max (player.position.y - speed) 0
        { s with players := modifyPlayer socketId (fun q => { q with position := ⟨q.position.x, y1⟩ }) s.players }
      | "down" =>
        let y1 := min (player.position.y + speed) CANVAS_H
        { s with players := modifyPlayer socketId (fun q => { q with position := ⟨q.position.x, y1⟩ }) s.players }
      | "left" =>
        let x1 := max (player.position.x - speed) 0
        { s with players := modifyPlayer socketId (fun q => { q with position := ⟨x1, q.position.y⟩ }) s.players }
      | "right" =>
        let x1 := min (player.position.x + speed) CANVAS_W
        { s with players := modifyPlayer socketId (fun q => { q with position := ⟨x1, q.position.y⟩ }) s.players }
      | _ => s

/-! ## Reset (lines 133-155) -/

/-- Lines 139-142: every participant gets score 0 and a fresh random position. -/
def resetPlayers : List Player → Rng → List Player × Rng
  | [], g => ([], g)
  | p :: ps, g =>
    let pos := randomPosition 30 g
    let rest := resetPlayers ps pos.2
    ({ p with score := 0, position := pos.1 } :: rest.1, rest.2)

/-- Lines 133-155; `t1` is the value of `Date.now()` at line 146 and `t2` its value
at line 154. -/
def resetGame (s : World) (t1 t2 : Nat) (g : Rng) : Outcome :=
  let ps := (resetPlayers s.players g).1
  let s1 : World :=
    { s with stateVersion := s.stateVersion + 1, players := ps, coins := [],
             nextCoinSpawn := t1 + COIN_RESPAWN_INTERVAL }
  { world := { s1 with pausedUntil := t2 + 600 },
    effects := [.emit none .gameReset (snapshot s1), .emit none .state (snapshot s1)],
    spawnLog := [] }

/-! ## Main tick (lines 158-211) -/

/-- Line 159. -/
def pickupThresholdSq : Int := (PLAYER_RADIUS + COIN_RADIUS) ^ 2

/-- Lines 170-174: whether the participant at `p` is within pickup range of `c`. -/
def inRange (p : Position) (c : Coin) : Bool :=
  let dx := p.x - c.x
  let dy := p.y - c.y
  decide (dx * dx + dy * dy ≤ pickupThresholdSq)

/-- Lines 168-180: the scan of `coins` for one participant.  It stops at the first
coin in range and returns it with the list that `splice` leaves. -/
def scanCoins (p : Position) : List Coin → Option (Coin × List Coin)
  | [] => none
  | c :: cs =>
    if inRange p c then some (c, cs)
    else
      match scanCoins p cs with
      | none => none
      | some (d, rest) => some (d, c :: rest)

/-- The state of the collision loop when it ends: `winner` is set when the loop was
left through the `return` of line 189. -/
structure Collision where
  players : List Player
  coins : List Coin
  winner : Option SocketId
deriving DecidableEq, Repr

/-- Lines 163-194: the loop over the participants, in enumeration order. -/
def collisionLoop : List Player → List Coin → Collision
  | [], coins => ⟨[], coins, none⟩
  | p :: ps, coins =>
    match scanCoins p.position coins with
    | none =>
      let r := collisionLoop ps coins
      ⟨p :: r.players, r.coins, r.winner⟩
    | some (_, rest) =>
      let p1 := { p with score := p.score + 1 }
      if p1.score ≥ WIN_SCORE then ⟨p1 :: ps, rest, some p.id⟩
      else
        let r := collisionLoop ps rest
        ⟨p1 :: r.players, r.coins, r.winner⟩

/-- Lines 198-204: the loop `while (now >= nextCoinSpawn)`.  The first argument
bounds the number of iterations; `tick` passes `now + 1 - nextCoinSpawn`, which no
run of the loop exhausts (`spawnLoop_exit`). -/
def spawnLoop : Nat → Nat → World → Rng → Outcome
  | 0, _, s, _ => ⟨s, [], []⟩
  | fuel + 1, now, s, g =>
    if now ≥ s.nextCoinSpawn then
      let m := makeNewCoin s g
      let s1 := { m.2.1 with coins := m.2.1.coins ++ [m.1] }
      let e := broadcastWithLag .state (snapshot s1) defaultLag
      let s2 := { s1 with nextCoinSpawn := s1.nextCoinSpawn + COIN_RESPAWN_INTERVAL }
      let r := spawnLoop fuel now s2 m.2.2
      ⟨r.world, e :: r.effects, m.1 :: r.spawnLog⟩
    else ⟨s, [], []⟩

/-- Lines 158-211: one run of the interval callback; `now` is the value of
`Date.now()` at line 197 and `now2` its value at line 207. -/
def tick (s : World) (now now2 : Nat) (g : Rng) : Outcome :=
  let r := collisionLoop s.players s.coins
  let s1 := { s with players := r.players, coins := r.coins }
  match r.winner with
  | some id =>
    { world := s1,
      effects := [.emit none .gameOver (.winner id), .setTimeout .resetGame 1200],
      spawnLog := [] }
  | none =>
    let sp := spawnLoop (now + 1 - s1.nextCoinSpawn) now s1 g
    let last :=
      if now2 ≥ sp.world.pausedUntil then
        [broadcastWithLag .state (snapshot sp.world) defaultLag]
      else []
    { world := sp.world, effects := sp.effects ++ last, spawnLog := sp.spawnLog }

/-! ## Start-up and runs -/

/-- The module-level initialisers (lines 16-22 and 82); `t0` is `Date.now()` at
line 22. -/
def emptyWorld (t0 : Nat) : World :=
  { players := [], stateVersion := 0, pausedUntil := 0, coins := [],
    nextCoinSpawn := t0, nextCoinId := 1 }

/-- The world when the module has been loaded: lines 215-216 run on the empty
world; `t1` is `Date.now()` at line 216. -/
def init (t0 t1 : Nat) (g : Rng) : World :=
  let m := makeNewCoin (emptyWorld t0) g
  { m.2.1 with coins := m.2.1.coins ++ [m.1], nextCoinSpawn := t1 + COIN_RESPAWN_INTERVAL }

/-- What can happen to the server after start-up: a socket connects, disconnects
or sends `input`, the interval callback runs, or a timer runs `resetGame`. -/
inductive Step where
  | join (socketId : SocketId) (g : Rng)
  | leave (socketId : SocketId)
  | input (socketId : SocketId) (dir : String)
  | tick (now now2 : Nat) (g : Rng)
  | resetGame (t1 t2 : Nat) (g : Rng)

/-- The handler of a step. -/
def Step.run (s : World) : Step → Outcome
  | .join id g => onConnection s id g
  | .leave id => onDisconnect s id
  | .input id dir => ⟨onInput s id dir, [], []⟩
  | .tick now now2 g => Server.tick s now now2 g
  | .resetGame t1 t2 g => Server.resetGame s t1 t2 g

/-- A sequence of steps, run from `s`: the final world with all effects and all
reported spawns, in order. -/
def exec (s : World) : List Step → Outcome
  | [] => ⟨s, [], []⟩
  | st :: rest =>
    let o := st.run s
    let r := exec o.world rest
    ⟨r.world, o.effects ++ r.effects, o.spawnLog ++ r.spawnLog⟩

/-- The worlds the server can be in: those some sequence of steps reaches from a
start-up world. -/
def Reachable (s : World) : Prop :=
  ∃ t0 t1 g steps, s = (exec (init t0 t1 g) steps).world

/-! ## Predicates used in the statements -/

/-- A position inside the world rectangle, borders included. -/
def InWorld (p : Position) : Prop :=
  0 ≤ p.x ∧ p.x ≤ 800 ∧ 0 ≤ p.y ∧ p.y ≤ 600

/-- Every participant of the world is inside the world rectangle. -/
def AllInWorld (s : World) : Prop := ∀ p ∈ s.players, InWorld p.position

/-- The entry `q` is the entry `p` with its score kept or raised by one. -/
def ScoreStep (p q : Player) : Prop :=
  q.id = p.id ∧ q.color = p.color ∧ q.position = p.position ∧
    (q.score = p.score ∨ q.score = p.score + 1)

/-- The entry `q` is the entry `p` after a turn of the collision loop that let the
loop go on: the score is kept, or raised by one to a value below the winning
score. -/
def Quiet (p q : Player) : Prop :=
  q.id = p.id ∧ (q.score = p.score ∨ q.score < WIN_SCORE)

/-- The list `issued` holds coins with pairwise distinct ids, all below the counter
`nextCoinId`, and the coins of the world are among them, in the same order. -/
def Issued (issued : List Coin) (s : World) : Prop :=
  (issued.map Coin.id).Nodup ∧ (∀ c ∈ issued, c.id < s.nextCoinId) ∧ s.coins.Sublist issued

/-- Whether the step is a run of `resetGame`. -/
def Step.isReset : Step → Bool
  | .resetGame _ _ _ => true
  | _ => false

/-- A connection comes with a socket id that no participant of the table has:
socket.io gives every connection an id of its own. -/
def Step.Fresh (s : World) : Step → Prop
  | .join socketId _ => getPlayer s.players socketId = none
  | _ => True

/-- An emit of `gameOver`, carried out at once or through a timer. -/
def isGameOver : Effect → Bool
  | .emit _ .gameOver _ => true
  | .setTimeout (.emit _ .gameOver _) _ => true
  | _ => false

/-- A timer that runs `resetGame`. -/
def isResetTimer : Effect → Bool
  | .setTimeout .resetGame _ => true
  | _ => false

/-! ## Reference behaviour of the input handler -/

/-- The position after a move of 5 units in the direction `dir`, clamped to the
world: up is y := max(y-5, 0), down is y := min(y+5, 600), left is
x := max(x-5, 0), right is x := min(x+5, 800). -/
def movedPosition (dir : String) (pos : Position) : Position :=
  if dir = "up" then ⟨pos.x, max (pos.y - 5) 0⟩
  else if dir = "down" then ⟨pos.x, min (pos.y + 5) 600⟩
  else if dir = "left" then ⟨max (pos.x - 5) 0, pos.y⟩
  else if dir = "right" then ⟨min (pos.x + 5) 800, pos.y⟩
  else pos

/-- The reference of the input handler, in the words of the specification: with
fewer than two participants, a sender that is no participant, or a direction other
than up, down, left and right, the world is unchanged; otherwise the position of
the sender is moved and nothing else changes. -/
def inputReference (s : World) (sender : SocketId) (dir : String) : World :=
  if s.players.length < 2 ∨ (∀ p ∈ s.players, p.id ≠ sender) ∨
      dir ∉ ["up", "down", "left", "right"] then s
  else
    { s with players := s.players.map fun p =>
        if p.id = sender then { p with position := movedPosition dir p.position } else p }

/-! ## Sample data -/

/-- The draw 1/2. -/
def half : Draw := ⟨1, 2, by decide⟩

/-- The generator whose every draw is 1/2: it places participants at (400, 300)
and coins at (400, 300). -/
def halfRng : Rng := ⟨fun _ => half⟩

/-- Two participants join; both are placed at (400, 300), where the coin of
start-up lies. -/
def twoJoined : List Step := [.join 7 halfRng, .join 8 halfRng]

/-- Two participants join at (400, 300), on the first coin, and the first of them
sends `up` six times, which takes it to (400, 270), out of range of the coin. -/
def sixUp : List Step :=
  [.join 7 halfRng, .join 8 halfRng, .input 7 "up", .input 7 "up", .input 7 "up",
   .input 7 "up", .input 7 "up", .input 7 "up"]

/-- One participant joins at (400, 300) and four ticks follow.  The first tick, at
21000, gives it the coin of start-up and spawns seven coins under it (the deadlines
3000, 6000, ..., 21000 have passed); each later tick gives it one more: its score
is then 4. -/
def fourPickups : List Step :=
  [.join 7 halfRng, .tick 21000 21000 halfRng, .tick 21033 21033 halfRng,
   .tick 21067 21067 halfRng, .tick 21100 21100 halfRng]

/-- Whether the step is a run of the interval callback. -/
def Step.isTick : Step → Bool
  | .tick _ _ _ => true
  | _ => false

/-- The generator after `i` calls of `randomCoinPosition`. -/
def afterCandidates (g : Rng) : Nat → Rng
  | 0 => g
  | i + 1 => afterCandidates (randomCoinPosition g).2 i

/-- The candidate that call number `i + 1` of `randomCoinPosition` draws. -/
def candidate (g : Rng) (i : Nat) : Position :=
  (randomCoinPosition (afterCandidates g i)).1

/-- The position `c` is at squared distance at least (15 + 10 + 20)^2 = 2025 from
every participant. -/
def FarFromAll (players : List Player) (c : Position) : Prop :=
  ∀ p ∈ players, 2025 ≤ (c.x - p.position.x) ^ 2 + (c.y - p.position.y) ^ 2

/-- A run of `resetGame` whose two readings of the clock are at most 2400 ms
apart, as they are when the call runs at one clock time (`t1 = t2`); the other
steps are not constrained. -/
def Step.Prompt : Step → Prop
  | .resetGame t1 t2 _ => t2 ≤ t1 + 2400
  | _ => True

/-- The worlds reached from a start-up world by steps in which every run of
`resetGame` is prompt; the clock values of the steps are otherwise free, so the
runs under a non-decreasing clock are among these. -/
def ReachablePrompt (s : World) : Prop :=
  ∃ t0 t1 g steps, (∀ st ∈ steps, Step.Prompt st) ∧ s = (exec (init t0 t1 g) steps).world

/-- An emit of `state`, carried out at once or through a timer. -/
def isStateMessage : Effect → Bool
  | .emit _ .state _ => true
  | .setTimeout (.emit _ .state _) _ => true
  | _ => false

end Server

namespace Client

/-- An entry of `frontendPlayers` (client.js lines 11-12); `none` in `color` or
`score` stands for `undefined`. -/
structure VisualEntity where
  currentX : ℚ
  currentY : ℚ
  targetX : ℚ
  targetY : ℚ
  color : Option Int
  score : Option Nat
deriving DecidableEq

/-- Line 216 of client.js. -/
def alpha : ℚ := 1 / 10

/-- Lines 222-223 of client.js: the interpolation of one entry. -/
def interpolate (p : VisualEntity) : VisualEntity :=
  { p with currentX := p.currentX + (p.targetX - p.currentX) * alpha,
           currentY := p.currentY + (p.targetY - p.currentY) * alpha }

/-- Lines 214-245 of client.js, on the table `frontendPlayers`: every entry is
interpolated (the drawing calls do not change the table). -/
def updateAndDrawPlayers (frontendPlayers : List (Nat × VisualEntity)) :
    List (Nat × VisualEntity) :=
  frontendPlayers.map fun e => (e.1, interpolate e.2)

/-- The offset that remains on the x axis: target minus current. -/
def offsetX (p : VisualEntity) : ℚ := p.targetX - p.currentX

/-- The offset that remains on the y axis: target minus current. -/
def offsetY (p : VisualEntity) : ℚ := p.targetY - p.currentY

/-! ## Messages as the client reads them -/

/-- The object `position` of a participant in a message. -/
structure WirePosition where
  x : ℚ
  y : ℚ
deriving DecidableEq

/-- A participant in a message, as the handlers read it: `position` may be
missing, `color` is `none` when it is missing or falsy, and `score` is `none` when
it is `undefined` or `null`. -/
structure WirePlayer where
  id : Nat
  position : Option WirePosition
  color : Option Int
  score : Option Nat
deriving DecidableEq

/-- The payload `{ players, coins, version }` of `state`, `gameReset` and
`currentPlayers`: `players` is an object, listed as its keys with their values in
enumeration order (a value `none` is `null`), and `coins` may be missing. -/
structure Snapshot where
  players : List (Nat × Option WirePlayer)
  coins : Option (List Server.Coin)
  version : Nat
deriving DecidableEq

/-- The module-level variables `frontendPlayers` and `frontendCoins` of client.js
(lines 13-14); the keys of `frontendPlayers` are listed in enumeration order. -/
structure ClientState where
  frontendPlayers : List (Nat × VisualEntity)
  frontendCoins : List Server.Coin
deriving DecidableEq

/-- How a handler ends: it returns, or a `TypeError` leaves it; either way the
variables keep what was assigned until then. -/
inductive Handled where
  | completed (st : ClientState)
  | raised (st : ClientState)
deriving DecidableEq

/-! ## Tables keyed by id -/

/-- The lookup `table[id]`. -/
def getEntry {α : Type} : List (Nat × α) → Nat → Option α
  | [], _ => none
  | e :: rest, id => if e.1 = id then some e.2 else getEntry rest id

/-- The assignment `table[id] = v`: an existing key keeps its place, a new one
comes last. -/
def setEntry {α : Type} (id : Nat) (v : α) : List (Nat × α) → List (Nat × α)
  | [] => [(id, v)]
  | e :: rest => if e.1 = id then (id, v) :: rest else e :: setEntry id v rest

/-- An assignment to fields of `table[id]`. -/
def modifyEntry {α : Type} (id : Nat) (f : α → α) : List (Nat × α) → List (Nat × α)
  | [] => []
  | e :: rest => if e.1 = id then (e.1, f e.2) :: rest else e :: modifyEntry id f rest

/-- The statement `delete table[id]`. -/
def deleteEntry {α : Type} (id : Nat) (table : List (Nat × α)) : List (Nat × α) :=
  table.filter fun e => e.1 ≠ id

/-! ## Snapshot handlers (client.js lines 38-136) -/

/-- The colour `'#ffffff'`, as a number. -/
def white : Int := 16777215

/-- Lines 76-83, 113-120 and 126-132: the entry made for a participant seen for
the first time, with `color: p.color || '#ffffff'` and `score: p.score || 0`. -/
def newEntry (pos : WirePosition) (p : WirePlayer) : VisualEntity :=
  { currentX := pos.x, currentY := pos.y, targetX := pos.x, targetY := pos.y,
    color := some (p.color.getD white), score := some (p.score.getD 0) }

/-- Lines 47-54: the entry `gameReset` makes, with `color: p.color` and
`score: p.score`. -/
def resetEntry (pos : WirePosition) (p : WirePlayer) : VisualEntity :=
  { currentX := pos.x, currentY := pos.y, targetX := pos.x, targetY := pos.y,
    color := p.color, score := p.score }

/-- Lines 86-90: the update of an entry that exists, with
`color = p.color || old.color` and `score = p.score ?? old.score`. -/
def updateEntry (pos : WirePosition) (p : WirePlayer) (v : VisualEntity) : VisualEntity :=
  { v with targetX := pos.x, targetY := pos.y,
           color := match p.color with
             | some c => some c
             | none => v.color,
           score := match p.score with
             | some n => some n
             | none => v.score }

/-- Lines 71-91: one turn of the first loop of the `state` handler. -/
def stateStep (fp : List (Nat × VisualEntity)) (e : Nat × Option WirePlayer) :
    List (Nat × VisualEntity) :=
  match e.2 with
  | none => fp
  | some p =>
    match p.position with
    | none => fp
    | some pos =>
      match getEntry fp e.1 with
      | none => setEntry e.1 (newEntry pos p) fp
      | some _ => modifyEntry e.1 (updateEntry pos p) fp

/-- Line 96: whether `players[id]` is truthy. -/
def reported (players : List (Nat × Option WirePlayer)) (id : Nat) : Bool :=
  match getEntry players id with
  | some (some _) => true
  | _ => false

/-- Lines 63-100: the handler of `state`. -/
def onState (st : ClientState) (payload : Snapshot) : ClientState :=
  let fp := payload.players.foldl stateStep st.frontendPlayers
  { frontendCoins := payload.coins.getD [],
    frontendPlayers := fp.filter fun e => reported payload.players e.1 }

/-- Lines 45-55 and 111-121: the loop of the two full-snapshot handlers, which
reads `p.position.x` without a guard; `mk` builds the entry.  The result is the
table when the loop ends, or `error` with the table when a `TypeError` is raised
(the participant is `null` or has no `position`). -/
def fillLoop (mk : WirePosition → WirePlayer → VisualEntity) :
    List (Nat × Option WirePlayer) → List (Nat × VisualEntity) →
    Except (List (Nat × VisualEntity)) (List (Nat × VisualEntity))
  | [], fp => .ok fp
  | e :: rest, fp =>
    match e.2 with
    | none => .error fp
    | some p =>
      match p.position with
      | none => .error fp
      | some pos => fillLoop mk rest (setEntry e.1 (mk pos p) fp)

/-- The end of a full-snapshot handler, from the end of its loop. -/
def finish (coins : List Server.Coin) :
    Except (List (Nat × VisualEntity)) (List (Nat × VisualEntity)) → Handled
  | .ok fp => .completed { frontendPlayers := fp, frontendCoins := coins }
  | .error fp => .raised { frontendPlayers := fp, frontendCoins := coins }

/-- Lines 38-58: the handler of `gameReset`; what the variables held before is
overwritten. -/
def onGameReset (_st : ClientState) (payload : Snapshot) : Handled :=
  finish (payload.coins.getD []) (fillLoop resetEntry payload.players [])

/-- Lines 103-122: the handler of `currentPlayers`; what the variables held before
is overwritten. -/
def onCurrentPlayers (_st : ClientState) (payload : Snapshot) : Handled :=
  finish (payload.coins.getD []) (fillLoop newEntry payload.players [])

/-- Lines 123-133: the handler of `newPlayer`; `none` is a falsy argument. -/
def onNewPlayer (st : ClientState) (arg : Option WirePlayer) : ClientState :=
  match arg with
  | none => st
  | some p =>
    match p.position with
    | none => st
    | some pos => { st with frontendPlayers := setEntry p.id (newEntry pos p) st.frontendPlayers }

/-- Lines 134-136: the handler of `playerDisconnected`. -/
def onPlayerDisconnected (st : ClientState) (id : Nat) : ClientState :=
  { st with frontendPlayers := deleteEntry id st.frontendPlayers }

/-- What the first loop of the `state` handler reads of an entry of `players`: the
participant with its position, when it is an object that has one. -/
def positioned (e : Option WirePlayer) : Option (WirePlayer × WirePosition) :=
  match e with
  | none => none
  | some p =>
    match p.position with
    | none => none
    | some pos => some (p, pos)

/-- The entry of a participant after the first loop of the `state` handler, from
the entry it had before, if any. -/
def merged (old : Option VisualEntity) (pos : WirePosition) (p : WirePlayer) : VisualEntity :=
  match old with
  | none => newEntry pos p
  | some v => updateEntry pos p v

/-- A table with a known entry 7 (current (0, 0), target (5, 5)) and a known
entry 9. -/
def sampleState : ClientState :=
  { frontendPlayers := [(7, ⟨0, 0, 5, 5, some 3, some 2⟩), (9, ⟨1, 1, 1, 1, some 4, some 0⟩)],
    frontendCoins := [] }

/-- A snapshot of version 1 with participant 7 at (10, 20) and participant 8 at
(1, 2). -/
def sampleSnapshot : Snapshot :=
  { players := [(7, some ⟨7, some ⟨10, 20⟩, some 6, some 1⟩),
                (8, some ⟨8, some ⟨1, 2⟩, some 9, some 0⟩)],
    coins := some [⟨1, 400, 300⟩], version := 1 }

/-- The older of two snapshots of participant 7: version 1, position (1, 1),
score 1. -/
def olderSnapshot : Snapshot :=
  { players := [(7, some ⟨7, some ⟨1, 1⟩, some 6, some 1⟩)], coins := some [], version := 1 }

/-- The more recent of two snapshots of participant 7: version 2, position (2, 2),
score 2. -/
def newerSnapshot : Snapshot :=
  { players := [(7, some ⟨7, some ⟨2, 2⟩, some 6, some 2⟩)], coins := some [], version := 2 }

/-- A snapshot in which participant 7 has no `position` and participant 8 is at
(1, 2). -/
def noPositionSnapshot : Snapshot :=
  { players := [(7, some ⟨7, none, some 6, some 1⟩), (8, some ⟨8, some ⟨1, 2⟩, some 9, some 0⟩)],
    coins := some [], version := 1 }

end Client

namespace Server

/-! ## Basic facts about the utilities -/

theorem floorMul_nonneg (r : Draw) {k : Int} (hk : 0 ≤ k) : 0 ≤ floorMul r k := by
  unfold floorMul
  exact Int.ediv_nonneg (Int.mul_nonneg (Int.ofNat_nonneg _) hk) (Int.ofNat_nonneg _)

theorem floorMul_lt (r : Draw) {k : Int} (hk : 0 < k) : floorMul r k < k := by
  unfold floorMul
  have hd : (0 : Int) < (r.den : Int) := by
    have := r.lt_one
    omega
  apply Int.ediv_lt_of_lt_mul hd
  have hn : (r.num : Int) < (r.den : Int) := by exact_mod_cast r.lt_one
  nlinarith

theorem randomPosition_bounds (g : Rng) :
    30 ≤ (randomPosition 30 g).1.x ∧ (randomPosition 30 g).1.x < 770 ∧
    30 ≤ (randomPosition 30 g).1.y ∧ (randomPosition 30 g).1.y < 570 := by
  have hx0 := floorMul_nonneg g.head (show (0 : Int) ≤ 740 by norm_num)
  have hx1 := floorMul_lt g.head (show (0 : Int) < 740 by norm_num)
  have hy0 := floorMul_nonneg g.tail.head (show (0 : Int) ≤ 540 by norm_num)
  have hy1 := floorMul_lt g.tail.head (show (0 : Int) < 540 by norm_num)
  simp only [randomPosition, CANVAS_W, CANVAS_H]
  norm_num
  omega

theorem mem_insertPlayer {p q : Player} {ps : List Player} (h : q ∈ insertPlayer p ps) :
    q = p ∨ q ∈ ps := by
  induction ps with
  | nil => simp [insertPlayer] at h; exact Or.inl h
  | cons a as ih =>
    simp only [insertPlayer] at h
    split at h
    · rcases List.mem_cons.1 h with h | h
      · exact Or.inl h
      · exact Or.inr (List.mem_cons_of_mem _ h)
    · rcases List.mem_cons.1 h with h | h
      · exact Or.inr (h ▸ List.mem_cons_self _ _)
      · rcases ih h with h | h
        · exact Or.inl h
        · exact Or.inr (List.mem_cons_of_mem _ h)

theorem mem_modifyPlayer {id : SocketId} {f : Player → Player} {q : Player} {ps : List Player}
    (h : q ∈ modifyPlayer id f ps) : q ∈ ps ∨ ∃ p ∈ ps, q = f p := by
  induction ps with
  | nil => simp [modifyPlayer] at h
  | cons a as ih =>
    simp only [modifyPlayer] at h
    split at h
    · rcases List.mem_cons.1 h with h | h
      · exact Or.inr ⟨a, List.mem_cons_self _ _, h⟩
      · exact Or.inl (List.mem_cons_of_mem _ h)
    · rcases List.mem_cons.1 h with h | h
      · exact Or.inl (h ▸ List.mem_cons_self _ _)
      · rcases ih h with h | ⟨p, hp, hq⟩
        · exact Or.inl (List.mem_cons_of_mem _ h)
        · exact Or.inr ⟨p, List.mem_cons_of_mem _ hp, hq⟩

theorem getPlayer_mem {ps : List Player} {id : SocketId} {p : Player}
    (h : getPlayer ps id = some p) : p ∈ ps ∧ p.id = id := by
  induction ps with
  | nil => simp [getPlayer] at h
  | cons a as ih =>
    simp only [getPlayer] at h
    split at h
    · cases h
      exact ⟨List.mem_cons_self _ _, by assumption⟩
    · exact ⟨List.mem_cons_of_mem _ (ih h).1, (ih h).2⟩

/-! ## The collision loop -/

theorem scoreStep_refl (p : Player) : ScoreStep p p :=
  ⟨rfl, rfl, rfl, Or.inl rfl⟩

theorem forall₂_scoreStep_refl (ps : List Player) : List.Forall₂ ScoreStep ps ps := by
  induction ps with
  | nil => exact List.Forall₂.nil
  | cons a as ih => exact List.Forall₂.cons (scoreStep_refl a) ih

theorem collisionLoop_nil (cs : List Coin) : collisionLoop [] cs = ⟨[], cs, none⟩ := rfl

theorem collisionLoop_cons_none {p : Player} {ps : List Player} {cs : List Coin}
    (h : scanCoins p.position cs = none) :
    collisionLoop (p :: ps) cs =
      ⟨p :: (collisionLoop ps cs).players, (collisionLoop ps cs).coins,
        (collisionLoop ps cs).winner⟩ := by
  simp only [collisionLoop, h]

theorem collisionLoop_cons_win {p : Player} {ps : List Player} {cs rest : List Coin} {c : Coin}
    (h : scanCoins p.position cs = some (c, rest)) (hw : WIN_SCORE ≤ p.score + 1) :
    collisionLoop (p :: ps) cs = ⟨{ p with score := p.score + 1 } :: ps, rest, some p.id⟩ := by
  simp only [collisionLoop, h, ge_iff_le, hw, if_true]

theorem collisionLoop_cons_pick {p : Player} {ps : List Player} {cs rest : List Coin} {c : Coin}
    (h : scanCoins p.position cs = some (c, rest)) (hw : ¬ WIN_SCORE ≤ p.score + 1) :
    collisionLoop (p :: ps) cs =
      ⟨{ p with score := p.score + 1 } :: (collisionLoop ps rest).players,
        (collisionLoop ps rest).coins, (collisionLoop ps rest).winner⟩ := by
  simp only [collisionLoop, h, ge_iff_le, hw, if_false]

theorem collisionLoop_players (ps : List Player) (cs : List Coin) :
    List.Forall₂ ScoreStep ps (collisionLoop ps cs).players := by
  induction ps generalizing cs with
  | nil => exact List.Forall₂.nil
  | cons p ps ih =>
    cases h : scanCoins p.position cs with
    | none =>
      rw [collisionLoop_cons_none h]
      exact List.Forall₂.cons (scoreStep_refl p) (ih cs)
    | some r =>
      obtain ⟨c, rest⟩ := r
      by_cases hw : WIN_SCORE ≤ p.score + 1
      · rw [collisionLoop_cons_win h hw]
        exact List.Forall₂.cons ⟨rfl, rfl, rfl, Or.inr rfl⟩ (forall₂_scoreStep_refl ps)
      · rw [collisionLoop_cons_pick h hw]
        exact List.Forall₂.cons ⟨rfl, rfl, rfl, Or.inr rfl⟩ (ih _)

theorem forall₂_scoreStep_mem {ps qs : List Player} (h : List.Forall₂ ScoreStep ps qs)
    {q : Player} (hq : q ∈ qs) : ∃ p ∈ ps, ScoreStep p q := by
  induction h with
  | nil => simp at hq
  | cons hab _ ih =>
    rcases List.mem_cons.1 hq with hq | hq
    · subst hq
      exact ⟨_, List.mem_cons_self _ _, hab⟩
    · obtain ⟨p, hp, hpq⟩ := ih hq
      exact ⟨p, List.mem_cons_of_mem _ hp, hpq⟩

/-! ## The spawn loop -/

theorem spawnLoop_players (fuel now : Nat) (s : World) (g : Rng) :
    (spawnLoop fuel now s g).world.players = s.players := by
  induction fuel generalizing s g with
  | zero => rfl
  | succ n ih =>
    unfold spawnLoop
    split
    · simp only [ih, makeNewCoin]
    · rfl

theorem spawnLoop_stateVersion (fuel now : Nat) (s : World) (g : Rng) :
    (spawnLoop fuel now s g).world.stateVersion = s.stateVersion := by
  induction fuel generalizing s g with
  | zero => rfl
  | succ n ih =>
    unfold spawnLoop
    split
    · simp only [ih, makeNewCoin]
    · rfl

theorem spawnLoop_pausedUntil (fuel now : Nat) (s : World) (g : Rng) :
    (spawnLoop fuel now s g).world.pausedUntil = s.pausedUntil := by
  induction fuel generalizing s g with
  | zero => rfl
  | succ n ih =>
    unfold spawnLoop
    split
    · simp only [ih, makeNewCoin]
    · rfl

/-- The loop `while (now >= nextCoinSpawn)` is left through its condition: the
bound `now + 1 - nextCoinSpawn` on its iterations is never what stops it. -/
theorem spawnLoop_exit (fuel now : Nat) (s : World) (g : Rng)
    (h : now + 1 - s.nextCoinSpawn ≤ fuel) :
    now < (spawnLoop fuel now s g).world.nextCoinSpawn := by
  induction fuel generalizing s g with
  | zero =>
    simp only [spawnLoop]
    omega
  | succ n ih =>
    unfold spawnLoop
    split
    · apply ih
      simp only [makeNewCoin, COIN_RESPAWN_INTERVAL]
      omega
    · simp only
      omega

/-- Any two bounds that are at least `now + 1 - nextCoinSpawn` give the same run of
the loop. -/
theorem spawnLoop_fuel (f1 f2 now : Nat) (s : World) (g : Rng)
    (h1 : now + 1 - s.nextCoinSpawn ≤ f1) (h2 : now + 1 - s.nextCoinSpawn ≤ f2) :
    spawnLoop f1 now s g = spawnLoop f2 now s g := by
  induction f1 generalizing f2 s g with
  | zero =>
    have hc : ¬ now ≥ s.nextCoinSpawn := by omega
    cases f2 with
    | zero => rfl
    | succ m => simp only [spawnLoop, hc, if_false]
  | succ n ih =>
    by_cases hc : now ≥ s.nextCoinSpawn
    · cases f2 with
      | zero => omega
      | succ m =>
        simp only [spawnLoop, hc, if_true]
        rw [ih m _ _ (by simp only [makeNewCoin, COIN_RESPAWN_INTERVAL]; omega)
          (by simp only [makeNewCoin, COIN_RESPAWN_INTERVAL]; omega)]
    · cases f2 with
      | zero => simp only [spawnLoop, hc, if_false]
      | succ m => simp only [spawnLoop, hc, if_false]

/-! ## Positions stay inside the world -/

theorem randomPosition_inWorld (g : Rng) : InWorld (randomPosition 30 g).1 := by
  have h := randomPosition_bounds g
  unfold InWorld
  omega

theorem resetPlayers_forall (ps : List Player) (g : Rng) :
    ∀ q ∈ (resetPlayers ps g).1, q.score = 0 ∧
      30 ≤ q.position.x ∧ q.position.x < 770 ∧ 30 ≤ q.position.y ∧ q.position.y < 570 := by
  induction ps generalizing g with
  | nil => intro q hq; simp [resetPlayers] at hq
  | cons p ps ih =>
    intro q hq
    simp only [resetPlayers] at hq
    rcases List.mem_cons.1 hq with hq | hq
    · subst hq
      exact ⟨rfl, randomPosition_bounds g⟩
    · exact ih _ q hq

theorem onInput_allInWorld (s : World) (id : SocketId) (dir : String) (h : AllInWorld s) :
    AllInWorld (onInput s id dir) := by
  unfold onInput
  split
  · exact h
  · split
    · exact h
    · rename_i player hg
      have hp := h player (getPlayer_mem hg).1
      unfold InWorld at hp
      split
      all_goals first
        | exact h
        | (intro q hq
           rcases mem_modifyPlayer hq with hq | ⟨p, hp2, rfl⟩
           · exact h q hq
           · have hp3 := h p hp2
             simp only [InWorld, speed, CANVAS_H, CANVAS_W] at hp3 ⊢
             omega)

theorem step_allInWorld (s : World) (st : Step) (h : AllInWorld s) :
    AllInWorld (st.run s).world := by
  cases st with
  | join id g =>
    intro q hq
    rcases mem_insertPlayer hq with rfl | hq
    · exact randomPosition_inWorld _
    · exact h q hq
  | leave id =>
    intro q hq
    exact h q (List.mem_of_mem_filter hq)
  | input id dir => exact onInput_allInWorld s id dir h
  | tick now now2 g =>
    intro q hq
    simp only [Step.run, tick] at hq
    split at hq
    · obtain ⟨p, hp, hpq⟩ := forall₂_scoreStep_mem (collisionLoop_players s.players s.coins) hq
      rw [hpq.2.2.1]
      exact h p hp
    · simp only [spawnLoop_players] at hq
      obtain ⟨p, hp, hpq⟩ := forall₂_scoreStep_mem (collisionLoop_players s.players s.coins) hq
      rw [hpq.2.2.1]
      exact h p hp
  | resetGame t1 t2 g =>
    intro q hq
    have := (resetPlayers_forall s.players g q hq).2
    unfold InWorld
    omega

theorem exec_invariant (P : World → Prop) (hstep : ∀ s st, P s → P (Step.run s st).world)
    (steps : List Step) (s : World) (h : P s) : P (exec s steps).world := by
  induction steps generalizing s with
  | nil => exact h
  | cons st rest ih => exact ih _ (hstep s st h)

/-- C1. In every world reachable from start-up by any sequence of join, leave,
input, tick and resetGame steps, every participant's position satisfies
0 <= x <= 800 and 0 <= y <= 600. -/
theorem C1_positions_in_world (s : World) (h : Reachable s) (p : Player) (hp : p ∈ s.players) :
    0 ≤ p.position.x ∧ p.position.x ≤ 800 ∧ 0 ≤ p.position.y ∧ p.position.y ≤ 600 := by
  obtain ⟨t0, t1, g, steps, rfl⟩ := h
  refine exec_invariant AllInWorld step_allInWorld steps _ ?_ p hp
  intro q hq
  simp [init, makeNewCoin, emptyWorld] at hq

theorem C1_positions_in_world_witness :
    Reachable ⟨[⟨7, 8388607, ⟨400, 295⟩, 0⟩, ⟨8, 8388607, ⟨400, 300⟩, 0⟩], 0, 0, [⟨1, 400, 300⟩], 3000, 2⟩ ∧
    (0 : Int) ≤ 400 ∧ (400 : Int) ≤ 800 ∧ (0 : Int) ≤ 295 ∧ (295 : Int) ≤ 600 :=
  ⟨⟨0, 0, halfRng, [.join 7 halfRng, .join 8 halfRng, .input 7 "up"], by decide⟩,
    C1_positions_in_world
      ⟨[⟨7, 8388607, ⟨400, 295⟩, 0⟩, ⟨8, 8388607, ⟨400, 300⟩, 0⟩], 0, 0, [⟨1, 400, 300⟩], 3000, 2⟩
      ⟨0, 0, halfRng, [.join 7 halfRng, .join 8 halfRng, .input 7 "up"], by decide⟩
      ⟨7, 8388607, ⟨400, 295⟩, 0⟩ (by decide)⟩

/-! ## One gameOver per winning tick -/

theorem spawnLoop_effects (fuel now : Nat) (s : World) (g : Rng) :
    ∀ e ∈ (spawnLoop fuel now s g).effects, ∃ d, e = broadcastWithLag .state d defaultLag := by
  induction fuel generalizing s g with
  | zero => intro e he; simp [spawnLoop] at he
  | succ n ih =>
    intro e he
    unfold spawnLoop at he
    split at he
    · rcases List.mem_cons.1 he with he | he
      · exact ⟨_, he⟩
      · exact ih _ _ e he
    · simp at he

theorem countP_eq_zero_of_forall {α : Type} (f : α → Bool) (l : List α)
    (h : ∀ e ∈ l, f e = false) : l.countP f = 0 := by
  rw [List.countP_eq_zero]
  intro e he
  simp [h e he]

theorem collisionLoop_winner_players {ps : List Player} {cs : List Coin} {w : SocketId}
    (h : (collisionLoop ps cs).winner = some w) : (collisionLoop ps cs).players ≠ ps := by
  induction ps generalizing cs with
  | nil => simp [collisionLoop] at h
  | cons p ps ih =>
    cases hs : scanCoins p.position cs with
    | none =>
      rw [collisionLoop_cons_none hs] at h ⊢
      intro heq
      exact ih h (List.cons.inj heq).2
    | some r =>
      obtain ⟨c, rest⟩ := r
      by_cases hw : WIN_SCORE ≤ p.score + 1
      · rw [collisionLoop_cons_win hs hw]
        intro heq
        have := congrArg Player.score (List.cons.inj heq).1
        simp at this
      · rw [collisionLoop_cons_pick hs hw]
        intro heq
        have := congrArg Player.score (List.cons.inj heq).1
        simp at this

/-- C2, as amended.  Every tick emits at most one gameOver and sets the resetGame
timer exactly as often as it emits gameOver; and a tick that leaves the table of
participants as it was (no score rose in it) emits no gameOver.  So after a
gameOver, a tick that runs before the reset declares a further win only when a
further pickup occurs in it. -/
theorem C2_one_gameOver_per_tick (s : World) (now now2 : Nat) (g : Rng) :
    (tick s now now2 g).effects.countP isGameOver ≤ 1 ∧
    (tick s now now2 g).effects.countP isResetTimer =
      (tick s now now2 g).effects.countP isGameOver ∧
    ((tick s now now2 g).world.players = s.players →
      (tick s now now2 g).effects.countP isGameOver = 0) := by
  cases hw : (collisionLoop s.players s.coins).winner with
  | some w =>
    have hne := collisionLoop_winner_players hw
    simp only [tick, hw]
    refine ⟨by simp [List.countP_cons, isGameOver], by simp [List.countP_cons, isGameOver, isResetTimer], fun h => absurd h hne⟩
  | none =>
    have hsp := spawnLoop_effects
      (now + 1 - s.nextCoinSpawn) now
      { s with players := (collisionLoop s.players s.coins).players,
               coins := (collisionLoop s.players s.coins).coins } g
    have hall : ∀ (f : Effect → Bool), (∀ d, f (broadcastWithLag .state d defaultLag) = false) →
        (tick s now now2 g).effects.countP f = 0 := by
      intro f hf
      apply countP_eq_zero_of_forall
      intro e he
      simp only [tick, hw, List.mem_append] at he
      rcases he with he | he
      · obtain ⟨d, rfl⟩ := hsp e he
        exact hf d
      · split at he
        · rw [List.mem_singleton.1 he]
          exact hf _
        · simp at he
    have h1 := hall isGameOver (fun d => rfl)
    have h2 := hall isResetTimer (fun d => rfl)
    rw [h1, h2]
    exact ⟨by decide, rfl, fun _ => rfl⟩

/-- C2 fails as stated: a participant with score 4 stands on several coins; the
tick at 21133 raises its score to 5 and emits gameOver, and the next tick, at
21167 and before any resetGame has run, raises it to 6 and emits gameOver and
sets the reset timer again. -/
theorem C2_second_gameOver_before_reset :
    (tick (exec (init 0 0 halfRng) fourPickups).world 21133 21133 halfRng).effects =
      [.emit none .gameOver (.winner 7), .setTimeout .resetGame 1200] ∧
    (tick (tick (exec (init 0 0 halfRng) fourPickups).world 21133 21133 halfRng).world
        21167 21167 halfRng).effects =
      [.emit none .gameOver (.winner 7), .setTimeout .resetGame 1200] := by
  decide

/-! ## Coin identities -/

theorem scanCoins_some {p : Position} {cs rest : List Coin} {c : Coin}
    (h : scanCoins p cs = some (c, rest)) :
    ∃ pre post, cs = pre ++ c :: post ∧ rest = pre ++ post ∧
      (∀ d ∈ pre, inRange p d = false) ∧ inRange p c = true := by
  induction cs generalizing rest with
  | nil => simp [scanCoins] at h
  | cons a as ih =>
    simp only [scanCoins] at h
    by_cases ha : inRange p a = true
    · simp only [ha, if_true, Option.some.injEq, Prod.mk.injEq] at h
      obtain ⟨rfl, rfl⟩ := h
      exact ⟨[], as, rfl, rfl, by simp, ha⟩
    · simp only [ha] at h
      cases hs : scanCoins p as with
      | none => simp [hs] at h
      | some r =>
        obtain ⟨d, rest2⟩ := r
        simp only [hs, Bool.false_eq_true, if_false, Option.some.injEq, Prod.mk.injEq] at h
        obtain ⟨rfl, rfl⟩ := h
        obtain ⟨pre, post, h1, h2, h3, h4⟩ := ih hs
        refine ⟨a :: pre, post, by rw [h1]; rfl, by rw [h2]; rfl, ?_, h4⟩
        intro e he
        rcases List.mem_cons.1 he with rfl | he
        · simpa using ha
        · exact h3 e he

theorem scanCoins_none {p : Position} {cs : List Coin} (h : scanCoins p cs = none) :
    ∀ d ∈ cs, inRange p d = false := by
  induction cs with
  | nil => simp
  | cons a as ih =>
    simp only [scanCoins] at h
    by_cases ha : inRange p a = true
    · simp [ha] at h
    · simp only [ha] at h
      cases hs : scanCoins p as with
      | none =>
        intro d hd
        rcases List.mem_cons.1 hd with rfl | hd
        · simpa using ha
        · exact ih hs d hd
      | some r => simp [hs] at h

theorem scanCoins_eq {p : Position} {pre post : List Coin} {c : Coin}
    (hpre : ∀ d ∈ pre, inRange p d = false) (hc : inRange p c = true) :
    scanCoins p (pre ++ c :: post) = some (c, pre ++ post) := by
  induction pre with
  | nil => simp [scanCoins, hc]
  | cons a as ih =>
    have ha := hpre a (List.mem_cons_self _ _)
    have := ih (fun d hd => hpre d (List.mem_cons_of_mem _ hd))
    simp [scanCoins, ha, this]

theorem scanCoins_sublist {p : Position} {cs rest : List Coin} {c : Coin}
    (h : scanCoins p cs = some (c, rest)) : rest.Sublist cs := by
  obtain ⟨pre, post, rfl, rfl, -, -⟩ := scanCoins_some h
  exact List.Sublist.append (List.Sublist.refl _) (List.sublist_cons_self _ _)

theorem collisionLoop_coins_sublist (ps : List Player) (cs : List Coin) :
    (collisionLoop ps cs).coins.Sublist cs := by
  induction ps generalizing cs with
  | nil => exact List.Sublist.refl _
  | cons p ps ih =>
    cases hs : scanCoins p.position cs with
    | none =>
      rw [collisionLoop_cons_none hs]
      exact ih cs
    | some r =>
      obtain ⟨c, rest⟩ := r
      by_cases hw : WIN_SCORE ≤ p.score + 1
      · rw [collisionLoop_cons_win hs hw]
        exact scanCoins_sublist hs
      · rw [collisionLoop_cons_pick hs hw]
        exact (ih rest).trans (scanCoins_sublist hs)

theorem spawnLoop_coins (fuel now : Nat) (s : World) (g : Rng) :
    (spawnLoop fuel now s g).world.coins = s.coins ++ (spawnLoop fuel now s g).spawnLog ∧
    (spawnLoop fuel now s g).world.nextCoinId =
      s.nextCoinId + (spawnLoop fuel now s g).spawnLog.length ∧
    (spawnLoop fuel now s g).spawnLog.map Coin.id =
      List.range' s.nextCoinId (spawnLoop fuel now s g).spawnLog.length := by
  induction fuel generalizing s g with
  | zero => simp [spawnLoop]
  | succ n ih =>
    unfold spawnLoop
    split
    · obtain ⟨h1, h2, h3⟩ := ih
        { (makeNewCoin s g).2.1 with
            coins := (makeNewCoin s g).2.1.coins ++ [(makeNewCoin s g).1],
            nextCoinSpawn := (makeNewCoin s g).2.1.nextCoinSpawn + COIN_RESPAWN_INTERVAL }
        (makeNewCoin s g).2.2
      refine ⟨?_, ?_, ?_⟩
      · simp only [h1]
        simp [makeNewCoin]
      · simp only [h2]
        simp only [makeNewCoin, List.length_cons]
        omega
      · simp only [List.map_cons, List.length_cons, h3, List.range'_succ]
        simp [makeNewCoin]
    · simp

theorem issued_of_same {L : List Coin} {s s1 : World} (h : Issued L s)
    (hc : s1.coins = s.coins) (hn : s1.nextCoinId = s.nextCoinId) : Issued (L ++ []) s1 := by
  rw [List.append_nil]
  exact ⟨h.1, by rw [hn]; exact h.2.1, by rw [hc]; exact h.2.2⟩

theorem issued_spawnLoop {L : List Coin} {s : World} (h : Issued L s) (fuel now : Nat)
    (g : Rng) :
    Issued (L ++ (spawnLoop fuel now s g).spawnLog) (spawnLoop fuel now s g).world := by
  obtain ⟨h1, h2, h3⟩ := spawnLoop_coins fuel now s g
  refine ⟨?_, ?_, ?_⟩
  · rw [List.map_append, h3, List.nodup_append]
    refine ⟨h.1, List.nodup_range' _ _, ?_⟩
    intro a ha hb
    obtain ⟨c, hc, rfl⟩ := List.mem_map.1 ha
    have := h.2.1 c hc
    rw [List.mem_range'_1] at hb
    omega
  · intro c hc
    rcases List.mem_append.1 hc with hc | hc
    · have := h.2.1 c hc
      omega
    · have hm : c.id ∈ (spawnLoop fuel now s g).spawnLog.map Coin.id := List.mem_map_of_mem _ hc
      rw [h3, List.mem_range'_1] at hm
      omega
  · rw [h1]
    exact List.Sublist.append h.2.2 (List.Sublist.refl _)

theorem issued_step {L : List Coin} {s : World} (h : Issued L s) (st : Step) :
    Issued (L ++ (st.run s).spawnLog) (st.run s).world := by
  cases st with
  | join id g => exact issued_of_same h rfl rfl
  | leave id => exact issued_of_same h rfl rfl
  | input id dir =>
    have hc : (onInput s id dir).coins = s.coins := by
      unfold onInput; split; · rfl
      split; · rfl
      split <;> rfl
    have hn : (onInput s id dir).nextCoinId = s.nextCoinId := by
      unfold onInput; split; · rfl
      split; · rfl
      split <;> rfl
    exact issued_of_same h hc hn
  | resetGame t1 t2 g =>
    simp only [Step.run, resetGame, List.append_nil]
    exact ⟨h.1, h.2.1, List.nil_sublist _⟩
  | tick now now2 g =>
    have hcol : Issued L { s with players := (collisionLoop s.players s.coins).players,
                                  coins := (collisionLoop s.players s.coins).coins } :=
      ⟨h.1, h.2.1, (collisionLoop_coins_sublist _ _).trans h.2.2⟩
    simp only [Step.run, tick]
    split
    · simp only [List.append_nil]
      exact hcol
    · exact issued_spawnLoop hcol _ _ _

theorem issued_exec {L : List Coin} {s : World} (h : Issued L s) (steps : List Step) :
    Issued (L ++ (exec s steps).spawnLog) (exec s steps).world := by
  induction steps generalizing L s with
  | nil => simpa [exec] using h
  | cons st rest ih =>
    have := ih (issued_step h st)
    simpa [exec, List.append_assoc] using this

theorem issued_init (t0 t1 : Nat) (g : Rng) : Issued (init t0 t1 g).coins (init t0 t1 g) := by
  refine ⟨?_, ?_, List.Sublist.refl _⟩
  · simp [init, makeNewCoin, emptyWorld]
  · simp [init, makeNewCoin, emptyWorld]

/-- In a reachable world the coins of the list have pairwise distinct ids, all of
them below the counter. -/
theorem reachable_coin_ids {s : World} (h : Reachable s) :
    (s.coins.map Coin.id).Nodup ∧ ∀ c ∈ s.coins, c.id < s.nextCoinId := by
  obtain ⟨t0, t1, g, steps, rfl⟩ := h
  obtain ⟨h1, h2, h3⟩ := issued_exec (issued_init t0 t1 g) steps
  exact ⟨(h3.map Coin.id).nodup h1, fun c hc => h2 c (h3.subset hc)⟩

/-- C6. The coins that makeNewCoin has issued in a run (the one of start-up and
those the ticks spawn, in order of issue, across any resets) have pairwise
distinct ids; the coins of the coin list are among them, so in every reachable
world they have pairwise distinct ids. -/
theorem C6_coin_ids_never_reused (t0 t1 : Nat) (g : Rng) (steps : List Step) :
    (((init t0 t1 g).coins ++ (exec (init t0 t1 g) steps).spawnLog).map Coin.id).Nodup ∧
    (exec (init t0 t1 g) steps).world.coins.Sublist
      ((init t0 t1 g).coins ++ (exec (init t0 t1 g) steps).spawnLog) ∧
    ((exec (init t0 t1 g) steps).world.coins.map Coin.id).Nodup := by
  obtain ⟨h1, h2, h3⟩ := issued_exec (issued_init t0 t1 g) steps
  exact ⟨h1, h3, (h3.map Coin.id).nodup h1⟩

/-! ## Pickup -/

theorem inRange_iff (p : Position) (c : Coin) :
    inRange p c = true ↔ (p.x - c.x) ^ 2 + (p.y - c.y) ^ 2 ≤ 625 := by
  simp only [inRange, pickupThresholdSq, PLAYER_RADIUS, COIN_RADIUS, decide_eq_true_eq]
  constructor <;> intro h <;> nlinarith

theorem inRange_false_iff (p : Position) (c : Coin) :
    inRange p c = false ↔ 625 < (p.x - c.x) ^ 2 + (p.y - c.y) ^ 2 := by
  rw [← Bool.not_eq_true, inRange_iff]
  omega

theorem scanCoins_keep {q : Position} {c d : Coin} {after rest : List Coin} (before : List Coin)
    (hq : inRange q c = false) (h : scanCoins q (before ++ c :: after) = some (d, rest)) :
    ∃ before1 after1, rest = before1 ++ c :: after1 ∧ before1.Sublist before ∧
      after1.Sublist after := by
  induction before generalizing rest with
  | nil =>
    simp only [List.nil_append, scanCoins, hq, Bool.false_eq_true, if_false] at h
    cases hs : scanCoins q after with
    | none => simp [hs] at h
    | some r =>
      obtain ⟨e, r2⟩ := r
      simp only [hs, Option.some.injEq, Prod.mk.injEq] at h
      obtain ⟨-, rfl⟩ := h
      exact ⟨[], r2, rfl, List.Sublist.refl _, scanCoins_sublist hs⟩
  | cons a bs ih =>
    simp only [List.cons_append, scanCoins] at h
    by_cases ha : inRange q a = true
    · simp only [ha, if_true, Option.some.injEq, Prod.mk.injEq] at h
      obtain ⟨-, rfl⟩ := h
      exact ⟨bs, after, rfl, List.sublist_cons_self _ _, List.Sublist.refl _⟩
    · simp only [ha, Bool.false_eq_true, if_false] at h
      cases hs : scanCoins q (bs ++ c :: after) with
      | none => simp [hs] at h
      | some r =>
        obtain ⟨e, r2⟩ := r
        simp only [List.append_eq, hs, Option.some.injEq, Prod.mk.injEq] at h
        obtain ⟨rfl, rfl⟩ := h
        obtain ⟨b1, a1, h1, h2, h3⟩ := ih hs
        exact ⟨a :: b1, a1, by rw [h1]; rfl, h2.cons₂ a, h3⟩

/-- The collision loop on a table in which `p` comes after `pre`, when `c` is the
first coin in range of `p`, no entry of `pre` is in range of `c`, and no entry of
`pre` can reach the winning score in this tick. -/
theorem collisionLoop_pickup (p : Player) (c : Coin) (post : List Player)
    (pre : List Player) (before after : List Coin)
    (hpre : ∀ q ∈ pre, inRange q.position c = false ∧ q.score + 1 < WIN_SCORE)
    (hbefore : ∀ d ∈ before, inRange p.position d = false)
    (hin : inRange p.position c = true) :
    ∃ pre1 post1,
      (collisionLoop (pre ++ p :: post) (before ++ c :: after)).players =
        pre1 ++ { p with score := p.score + 1 } :: post1 ∧
      pre1.length = pre.length ∧
      (collisionLoop (pre ++ p :: post) (before ++ c :: after)).coins.Sublist
        (before ++ after) := by
  induction pre generalizing before after with
  | nil =>
    have hs : scanCoins p.position (before ++ c :: after) = some (c, before ++ after) :=
      scanCoins_eq hbefore hin
    by_cases hw : WIN_SCORE ≤ p.score + 1
    · rw [List.nil_append, collisionLoop_cons_win hs hw]
      exact ⟨[], post, rfl, rfl, List.Sublist.refl _⟩
    · rw [List.nil_append, collisionLoop_cons_pick hs hw]
      exact ⟨[], _, rfl, rfl, collisionLoop_coins_sublist _ _⟩
  | cons q qs ih =>
    have hq := hpre q (List.mem_cons_self _ _)
    have hqs : ∀ r ∈ qs, inRange r.position c = false ∧ r.score + 1 < WIN_SCORE :=
      fun r hr => hpre r (List.mem_cons_of_mem _ hr)
    cases hs : scanCoins q.position (before ++ c :: after) with
    | none =>
      rw [List.cons_append, collisionLoop_cons_none hs]
      obtain ⟨pre1, post1, h1, h2, h3⟩ := ih before after hqs hbefore
      exact ⟨q :: pre1, post1, by simp only [h1]; rfl, by simp [h2], h3⟩
    | some r =>
      obtain ⟨d, rest⟩ := r
      have hw : ¬ WIN_SCORE ≤ q.score + 1 := by omega
      rw [List.cons_append, collisionLoop_cons_pick hs hw]
      obtain ⟨b1, a1, rfl, hb, ha⟩ := scanCoins_keep before hq.1 hs
      obtain ⟨pre1, post1, h1, h2, h3⟩ :=
        ih b1 a1 hqs (fun e he => hbefore e (hb.subset he))
      exact ⟨_ :: pre1, post1, by simp only [h1]; rfl, by simp [h2],
        h3.trans (List.Sublist.append hb ha)⟩

theorem tick_players (s : World) (now now2 : Nat) (g : Rng) :
    (tick s now now2 g).world.players = (collisionLoop s.players s.coins).players := by
  simp only [tick]
  split
  · rfl
  · simp only [spawnLoop_players]

theorem tick_coins (s : World) (now now2 : Nat) (g : Rng) :
    (tick s now now2 g).world.coins =
      (collisionLoop s.players s.coins).coins ++ (tick s now now2 g).spawnLog ∧
    (tick s now now2 g).spawnLog.map Coin.id =
      List.range' s.nextCoinId (tick s now now2 g).spawnLog.length := by
  simp only [tick]
  split
  · simp
  · have h := spawnLoop_coins (now + 1 - s.nextCoinSpawn) now
      { s with players := (collisionLoop s.players s.coins).players,
               coins := (collisionLoop s.players s.coins).coins } g
    exact ⟨h.1, h.2.2⟩

/-- C3, as amended.  In a reachable world let `c` be the first coin of the coin list
within pickup range of the participant `p` (squared distance at most 625), and let
every participant enumerated before `p` be out of range of `c` and have a score
below 4.  Then after one tick the score of `p` is its previous score plus 1 and
`c` is no longer in the coin list (nor is any coin with its id). -/
theorem C3_first_in_range_pickup (s : World) (hr : Reachable s) (now now2 : Nat) (g : Rng)
    (pre post : List Player) (p : Player) (before after : List Coin) (c : Coin)
    (hs : s.players = pre ++ p :: post) (hc : s.coins = before ++ c :: after)
    (hin : (p.position.x - c.x) ^ 2 + (p.position.y - c.y) ^ 2 ≤ 625)
    (hbefore : ∀ d ∈ before, 625 < (p.position.x - d.x) ^ 2 + (p.position.y - d.y) ^ 2)
    (hpre : ∀ q ∈ pre,
      625 < (q.position.x - c.x) ^ 2 + (q.position.y - c.y) ^ 2 ∧ q.score + 1 < 5) :
    (tick s now now2 g).world.players[pre.length]? = some { p with score := p.score + 1 } ∧
    c ∉ (tick s now now2 g).world.coins ∧
    c.id ∉ (tick s now now2 g).world.coins.map Coin.id := by
  obtain ⟨pre1, post1, h1, h2, h3⟩ := collisionLoop_pickup p c post pre before after
    (fun q hq => ⟨(inRange_false_iff _ _).2 (hpre q hq).1, (hpre q hq).2⟩)
    (fun d hd => (inRange_false_iff _ _).2 (hbefore d hd))
    ((inRange_iff _ _).2 hin)
  rw [← hs, ← hc] at h1 h3
  have hid : c.id ∉ (tick s now now2 g).world.coins.map Coin.id := by
    obtain ⟨hnd, hlt⟩ := reachable_coin_ids hr
    obtain ⟨hcoins, hlog⟩ := tick_coins s now now2 g
    rw [hcoins, List.map_append, List.mem_append]
    rintro (hm | hm)
    · have hsub := (h3.map Coin.id).subset hm
      rw [hc] at hnd
      simp only [List.map_append, List.map_cons] at hnd hsub
      have := (List.nodup_cons.1 (List.nodup_middle.1 hnd)).1
      simp only [List.mem_append] at hsub this
      exact this hsub
    · rw [hlog, List.mem_range'_1] at hm
      have := hlt c (by rw [hc]; simp)
      omega
  refine ⟨?_, fun hmem => hid (List.mem_map_of_mem _ hmem), hid⟩
  rw [tick_players, h1, ← h2, List.getElem?_append_right (Nat.le_refl _)]
  simp

theorem C3_first_in_range_pickup_witness :
    Reachable (exec (init 0 0 halfRng) sixUp).world ∧
    (tick (exec (init 0 0 halfRng) sixUp).world 100 100 halfRng).world.players[1]? =
      some ⟨8, 8388607, ⟨400, 300⟩, 1⟩ ∧
    (⟨1, 400, 300⟩ : Coin) ∉
      (tick (exec (init 0 0 halfRng) sixUp).world 100 100 halfRng).world.coins :=
  have h := C3_first_in_range_pickup (exec (init 0 0 halfRng) sixUp).world
    ⟨0, 0, halfRng, sixUp, rfl⟩ 100 100 halfRng
    [⟨7, 8388607, ⟨400, 270⟩, 0⟩] [] ⟨8, 8388607, ⟨400, 300⟩, 0⟩ [] [] ⟨1, 400, 300⟩
    (by decide) (by decide) (by decide) (by simp) (by simp)
  ⟨⟨0, 0, halfRng, sixUp, rfl⟩, h.1, h.2.1⟩

/-- C3 fails as stated: two participants stand on the only coin; the tick credits
the coin to the one enumerated first, and the second, although within range of a
coin of the list, keeps score 0. -/
theorem C3_second_in_range_not_credited :
    getPlayer (exec (init 0 0 halfRng) twoJoined).world.players 8 =
      some ⟨8, 8388607, ⟨400, 300⟩, 0⟩ ∧
    (exec (init 0 0 halfRng) twoJoined).world.coins = [⟨1, 400, 300⟩] ∧
    ((400 : Int) - 400) ^ 2 + ((300 : Int) - 300) ^ 2 ≤ 625 ∧
    getPlayer (tick (exec (init 0 0 halfRng) twoJoined).world 100 100 halfRng).world.players 8 =
      some ⟨8, 8388607, ⟨400, 300⟩, 0⟩ := by
  decide

/-! ## Scores and version -/

theorem forall₂_getPlayer {R : Player → Player → Prop} (hR : ∀ p q, R p q → q.id = p.id)
    {ps qs : List Player} (h : List.Forall₂ R ps qs)
    {id : SocketId} {p : Player} (hp : getPlayer ps id = some p) :
    ∃ q, getPlayer qs id = some q ∧ R p q := by
  induction h with
  | nil => simp [getPlayer] at hp
  | @cons a b as bs hab _ ih =>
    simp only [getPlayer] at hp ⊢
    rw [hR a b hab]
    by_cases hid : a.id = id
    · simp only [hid, if_true] at hp ⊢
      cases hp
      exact ⟨b, rfl, hab⟩
    · simp only [hid, if_false] at hp ⊢
      exact ih hp

theorem forall₂_modifyPlayer (id : SocketId) (f : Player → Player) (ps : List Player) :
    List.Forall₂ (fun p q => q = p ∨ (p.id = id ∧ q = f p)) ps (modifyPlayer id f ps) := by
  induction ps with
  | nil => exact List.Forall₂.nil
  | cons a as ih =>
    simp only [modifyPlayer]
    split
    · rename_i h
      refine List.Forall₂.cons (Or.inr ⟨h, rfl⟩) ?_
      exact List.forall₂_same.2 (fun x _ => Or.inl rfl)
    · exact List.Forall₂.cons (Or.inl rfl) ih

theorem getPlayer_insertPlayer_ne {p : Player} {id : SocketId} (h : id ≠ p.id)
    (ps : List Player) : getPlayer (insertPlayer p ps) id = getPlayer ps id := by
  induction ps with
  | nil =>
    simp only [insertPlayer, getPlayer]
    rw [if_neg (fun h2 => h h2.symm)]
  | cons a as ih =>
    simp only [insertPlayer]
    split
    · rename_i ha
      simp only [getPlayer]
      rw [if_neg (fun h2 => h h2.symm), if_neg (fun h2 => h (h2.symm.trans ha))]
    · simp only [getPlayer, ih]

theorem getPlayer_deletePlayer_some {id0 id : SocketId} {ps : List Player} {q : Player}
    (h : getPlayer (deletePlayer id0 ps) id = some q) : getPlayer ps id = some q := by
  induction ps with
  | nil => simp [deletePlayer, getPlayer] at h
  | cons a as ih =>
    simp only [deletePlayer, List.filter_cons] at h
    by_cases ha : a.id = id0
    · simp only [ha, ne_eq, not_true_eq_false, decide_False, Bool.false_eq_true, if_false] at h
      have hq := ih h
      have hid := (getPlayer_mem h).2
      have hmem := List.mem_filter.1 (getPlayer_mem h).1
      have hne : q.id ≠ id0 := by simpa using hmem.2
      simp only [getPlayer]
      rw [if_neg (fun h2 => hne (by rw [hid, ← h2, ha])), hq]
    · simp only [ha, ne_eq, not_false_eq_true, decide_True, if_true] at h
      simp only [getPlayer] at h ⊢
      by_cases hid : a.id = id
      · simpa only [hid, if_true] using h
      · simp only [hid, if_false] at h ⊢
        exact ih h

theorem onInput_players (s : World) (id : SocketId) (dir : String) :
    List.Forall₂ (fun p q => q.id = p.id ∧ q.color = p.color ∧ q.score = p.score)
      s.players (onInput s id dir).players := by
  have hrefl : List.Forall₂ (fun (p q : Player) => q.id = p.id ∧ q.color = p.color ∧
      q.score = p.score) s.players s.players :=
    List.forall₂_same.2 (fun x _ => ⟨rfl, rfl, rfl⟩)
  unfold onInput
  split
  · exact hrefl
  · split
    · exact hrefl
    · split
      all_goals first
        | exact hrefl
        | (refine (forall₂_modifyPlayer id _ s.players).imp ?_
           rintro p q (rfl | ⟨-, rfl⟩)
           · exact ⟨rfl, rfl, rfl⟩
           · exact ⟨rfl, rfl, rfl⟩)

theorem onInput_fields (s : World) (id : SocketId) (dir : String) :
    (onInput s id dir).stateVersion = s.stateVersion ∧
    (onInput s id dir).pausedUntil = s.pausedUntil ∧
    (onInput s id dir).coins = s.coins ∧
    (onInput s id dir).nextCoinSpawn = s.nextCoinSpawn ∧
    (onInput s id dir).nextCoinId = s.nextCoinId := by
  unfold onInput
  split
  · exact ⟨rfl, rfl, rfl, rfl, rfl⟩
  · split
    · exact ⟨rfl, rfl, rfl, rfl, rfl⟩
    · split <;> exact ⟨rfl, rfl, rfl, rfl, rfl⟩

/-- C4. A step other than resetGame (a join with a fresh socket id, a leave, an
input, a tick) leaves every participant that is in the table before and after it
with a score at least its score before; and right after resetGame every
participant's score is 0. -/
theorem C4_scores_monotone_until_reset (s : World) (st : Step) (hf : st.Fresh s) :
    (st.isReset = false → ∀ id p q, getPlayer s.players id = some p →
        getPlayer (st.run s).world.players id = some q → p.score ≤ q.score) ∧
    (st.isReset = true → ∀ q ∈ (st.run s).world.players, q.score = 0) := by
  cases st with
  | join id0 g =>
    refine ⟨fun _ id p q hp hq => ?_, fun h => by simp [Step.isReset] at h⟩
    by_cases hid : id = id0
    · subst hid
      simp only [Step.Fresh] at hf
      rw [hf] at hp
      cases hp
    · simp only [Step.run, onConnection] at hq
      rw [getPlayer_insertPlayer_ne (by simpa using hid)] at hq
      rw [hp] at hq
      cases hq
      exact Nat.le_refl _
  | leave id0 =>
    refine ⟨fun _ id p q hp hq => ?_, fun h => by simp [Step.isReset] at h⟩
    have := getPlayer_deletePlayer_some hq
    rw [hp] at this
    cases this
    exact Nat.le_refl _
  | input id0 dir =>
    refine ⟨fun _ id p q hp hq => ?_, fun h => by simp [Step.isReset] at h⟩
    obtain ⟨q2, hq2, h2⟩ := forall₂_getPlayer (fun _ _ h => h.1) (onInput_players s id0 dir) hp
    simp only [Step.run] at hq
    rw [hq2] at hq
    cases hq
    exact Nat.le_of_eq h2.2.2.symm
  | tick now now2 g =>
    refine ⟨fun _ id p q hp hq => ?_, fun h => by simp [Step.isReset] at h⟩
    obtain ⟨q2, hq2, h2⟩ :=
      forall₂_getPlayer (fun _ _ h => h.1) (collisionLoop_players s.players s.coins) hp
    simp only [Step.run, tick_players] at hq
    rw [hq2] at hq
    cases hq
    rcases h2.2.2.2 with h | h <;> omega
  | resetGame t1 t2 g =>
    refine ⟨fun h => by simp [Step.isReset] at h, fun _ q hq => ?_⟩
    exact (resetPlayers_forall s.players g q hq).1

theorem C4_scores_monotone_until_reset_witness :
    getPlayer (exec (init 0 0 halfRng) twoJoined).world.players 9 = none ∧
    (getPlayer (exec (init 0 0 halfRng) twoJoined).world.players 7 =
        some ⟨7, 8388607, ⟨400, 300⟩, 0⟩ →
      getPlayer ((Step.join 9 halfRng).run
          (exec (init 0 0 halfRng) twoJoined).world).world.players 7 =
        some ⟨7, 8388607, ⟨400, 300⟩, 0⟩ → 0 ≤ 0) :=
  ⟨by decide,
    (C4_scores_monotone_until_reset (exec (init 0 0 halfRng) twoJoined).world
      (.join 9 halfRng)
      (show getPlayer (exec (init 0 0 halfRng) twoJoined).world.players 9 = none by decide)).1
      rfl 7 ⟨7, 8388607, ⟨400, 300⟩, 0⟩ ⟨7, 8388607, ⟨400, 300⟩, 0⟩⟩

/-- C5. resetGame sets stateVersion to its previous value plus 1, and every other
step (join, leave, input, tick, with or without a win or a spawn) leaves it as it
was: the version changes exactly in the steps that are resets. -/
theorem C5_version_changes_only_at_reset (s : World) (st : Step) :
    (st.run s).world.stateVersion = (if st.isReset then s.stateVersion + 1 else s.stateVersion) ∧
    ((st.run s).world.stateVersion ≠ s.stateVersion ↔ st.isReset = true) := by
  have h : (st.run s).world.stateVersion =
      (if st.isReset then s.stateVersion + 1 else s.stateVersion) := by
    cases st with
    | join id g => rfl
    | leave id => rfl
    | input id dir => exact (onInput_fields s id dir).1
    | resetGame t1 t2 g => rfl
    | tick now now2 g =>
      simp only [Step.run, tick, Step.isReset]
      split
      · rfl
      · simp [spawnLoop_stateVersion]
  refine ⟨h, ?_⟩
  rw [h]
  cases st.isReset <;> simp

/-! ## The input handler -/

theorem getPlayer_eq_none {ps : List Player} {id : SocketId} :
    getPlayer ps id = none ↔ ∀ p ∈ ps, p.id ≠ id := by
  induction ps with
  | nil => simp [getPlayer]
  | cons a as ih =>
    simp only [getPlayer, List.mem_cons, forall_eq_or_imp]
    by_cases ha : a.id = id
    · simp [ha]
    · simp [ha, ih]

theorem modifyPlayer_eq_map {ps : List Player} {id : SocketId} {player : Player}
    {f g : Player → Player} (hn : (ps.map Player.id).Nodup)
    (hg : getPlayer ps id = some player) (hfg : f player = g player) :
    modifyPlayer id f ps = ps.map fun q => if q.id = id then g q else q := by
  induction ps with
  | nil => simp [getPlayer] at hg
  | cons a as ih =>
    simp only [List.map_cons, List.nodup_cons, List.mem_map, not_exists, not_and] at hn
    simp only [getPlayer] at hg
    by_cases ha : a.id = id
    · simp only [ha, if_true, Option.some.injEq] at hg
      subst hg
      simp only [modifyPlayer, ha, if_true, List.map_cons, hfg]
      congr 1
      symm
      calc as.map (fun q => if q.id = id then g q else q) = as.map (fun q => q) := by
            apply List.map_congr_left
            intro q hq
            rw [if_neg]
            intro hq2
            exact hn.1 q hq (hq2.trans ha.symm)
        _ = as := List.map_id' as
    · simp only [ha, if_false] at hg
      simp only [modifyPlayer, ha, if_false, List.map_cons, ih hn.2 hg]

/-- C8. On a table whose keys are pairwise distinct, the input handler equals the
reference: with fewer than two participants, an unknown sender or a direction
other than up, down, left and right the world is unchanged; otherwise only the
sender's position changes, by 5 units on the requested axis clamped to the world,
and the other coordinate, every score, every other participant, the coins and
the version stay as they were. -/
theorem C8_input_refines_reference (s : World) (sender : SocketId) (dir : String)
    (hn : (s.players.map Player.id).Nodup) :
    onInput s sender dir = inputReference s sender dir := by
  unfold onInput inputReference
  by_cases hlen : s.players.length < 2
  · simp only [hlen, true_or, if_true]
  · simp only [hlen, false_or, if_false]
    cases hg : getPlayer s.players sender with
    | none =>
      have := getPlayer_eq_none.1 hg
      simp only [List.mem_cons, if_pos (Or.inl this)]
    | some player =>
      have hex : ¬ ∀ p ∈ s.players, p.id ≠ sender := by
        intro h
        rw [getPlayer_eq_none.2 h] at hg
        cases hg
      simp only [hex, false_or]
      split
      · rw [if_neg (by decide)]
        congr 1
        exact modifyPlayer_eq_map hn hg (by simp [movedPosition, speed])
      · rw [if_neg (by decide)]
        congr 1
        exact modifyPlayer_eq_map hn hg (by simp [movedPosition, speed, CANVAS_H])
      · rw [if_neg (by decide)]
        congr 1
        exact modifyPlayer_eq_map hn hg (by simp [movedPosition, speed])
      · rw [if_neg (by decide)]
        congr 1
        exact modifyPlayer_eq_map hn hg (by simp [movedPosition, speed, CANVAS_W])
      · rename_i h1 h2 h3 h4
        rw [if_pos]
        simp only [List.mem_cons, List.mem_singleton, List.not_mem_nil, or_false, not_or]
        exact ⟨h1, h2, h3, h4⟩

theorem C8_input_refines_reference_witness :
    ((exec (init 0 0 halfRng) twoJoined).world.players.map Player.id).Nodup ∧
    onInput (exec (init 0 0 halfRng) twoJoined).world 7 "up" =
      inputReference (exec (init 0 0 halfRng) twoJoined).world 7 "up" ∧
    (onInput (exec (init 0 0 halfRng) twoJoined).world 7 "up").players =
      [⟨7, 8388607, ⟨400, 295⟩, 0⟩, ⟨8, 8388607, ⟨400, 300⟩, 0⟩] :=
  ⟨by decide,
    C8_input_refines_reference (exec (init 0 0 halfRng) twoJoined).world 7 "up" (by decide),
    by decide⟩

/-! ## The winning tick -/

theorem collisionLoop_no_winner {ps : List Player} {cs : List Coin}
    (h : (collisionLoop ps cs).winner = none) :
    List.Forall₂ Quiet ps (collisionLoop ps cs).players := by
  induction ps generalizing cs with
  | nil => exact List.Forall₂.nil
  | cons p ps ih =>
    cases hs : scanCoins p.position cs with
    | none =>
      rw [collisionLoop_cons_none hs] at h ⊢
      exact List.Forall₂.cons ⟨rfl, Or.inl rfl⟩ (ih h)
    | some r =>
      obtain ⟨c, rest⟩ := r
      by_cases hw : WIN_SCORE ≤ p.score + 1
      · rw [collisionLoop_cons_win hs hw] at h
        cases h
      · rw [collisionLoop_cons_pick hs hw] at h ⊢
        exact List.Forall₂.cons ⟨rfl, Or.inr (by simpa using hw)⟩ (ih h)

theorem collisionLoop_winner {ps : List Player} {cs : List Coin} {w : SocketId}
    (h : (collisionLoop ps cs).winner = some w) :
    ∃ pre pre1 p0 post, ps = pre ++ p0 :: post ∧
      (collisionLoop ps cs).players = pre1 ++ { p0 with score := p0.score + 1 } :: post ∧
      List.Forall₂ Quiet pre pre1 ∧ p0.id = w ∧ WIN_SCORE ≤ p0.score + 1 := by
  induction ps generalizing cs with
  | nil => simp [collisionLoop] at h
  | cons p ps ih =>
    cases hs : scanCoins p.position cs with
    | none =>
      rw [collisionLoop_cons_none hs] at h ⊢
      obtain ⟨pre, pre1, p0, post, h1, h2, h3, h4, h5⟩ := ih h
      exact ⟨p :: pre, p :: pre1, p0, post, by rw [h1]; rfl, by simp only [h2]; rfl,
        List.Forall₂.cons ⟨rfl, Or.inl rfl⟩ h3, h4, h5⟩
    | some r =>
      obtain ⟨c, rest⟩ := r
      by_cases hw : WIN_SCORE ≤ p.score + 1
      · rw [collisionLoop_cons_win hs hw] at h ⊢
        simp only [Option.some.injEq] at h
        exact ⟨[], [], p, ps, rfl, rfl, List.Forall₂.nil, h, hw⟩
      · rw [collisionLoop_cons_pick hs hw] at h ⊢
        obtain ⟨pre, pre1, p0, post, h1, h2, h3, h4, h5⟩ := ih h
        exact ⟨p :: pre, { p with score := p.score + 1 } :: pre1, p0, post, by rw [h1]; rfl,
          by simp only [h2]; rfl,
          List.Forall₂.cons ⟨rfl, Or.inr (by simpa using hw)⟩ h3, h4, h5⟩

theorem getPlayer_append_some {l1 : List Player} {id : SocketId} {p : Player}
    (h : getPlayer l1 id = some p) (l2 : List Player) : getPlayer (l1 ++ l2) id = some p := by
  induction l1 with
  | nil => simp [getPlayer] at h
  | cons a as ih =>
    simp only [List.cons_append, getPlayer] at h ⊢
    by_cases ha : a.id = id
    · simpa only [ha, if_true] using h
    · simp only [ha, if_false] at h ⊢
      exact ih h

theorem getPlayer_append_none {l1 : List Player} {id : SocketId}
    (h : getPlayer l1 id = none) (l2 : List Player) :
    getPlayer (l1 ++ l2) id = getPlayer l2 id := by
  induction l1 with
  | nil => rfl
  | cons a as ih =>
    simp only [List.cons_append, getPlayer] at h ⊢
    by_cases ha : a.id = id
    · simp [ha] at h
    · simp only [ha, if_false] at h ⊢
      exact ih h

theorem forall₂_quiet_getPlayer_none {ps qs : List Player} (h : List.Forall₂ Quiet ps qs)
    {id : SocketId} (hp : getPlayer ps id = none) : getPlayer qs id = none := by
  induction h with
  | nil => rfl
  | @cons a b as bs hab _ ih =>
    simp only [getPlayer] at hp ⊢
    rw [hab.1]
    by_cases ha : a.id = id
    · simp [ha] at hp
    · simp only [ha, if_false] at hp ⊢
      exact ih hp

/-- C9. When a tick raises the score of the participant `id` to 5 or more (a
pickup reaching the win threshold), the tick emits gameOver with winner `id` and
sets the timer that runs resetGame after 1200 ms, and it does nothing else: the
entries enumerated after the winner are untouched (no later pickup), no coin is
spawned (the coin counter, the spawn log and the next-spawn deadline are
unchanged and the coin list only lost coins), and no state snapshot is among the
effects. -/
theorem C9_winning_tick (s : World) (now now2 : Nat) (g : Rng) (id : SocketId) (p q : Player)
    (hp : getPlayer s.players id = some p)
    (hq : getPlayer (tick s now now2 g).world.players id = some q)
    (hrise : p.score < q.score) (hwin : 5 ≤ q.score) :
    (tick s now now2 g).effects =
      [.emit none .gameOver (.winner id), .setTimeout .resetGame 1200] ∧
    (∃ pre pre1 p0 post, s.players = pre ++ p0 :: post ∧ p0.id = id ∧
      pre1.length = pre.length ∧
      (tick s now now2 g).world.players = pre1 ++ { p0 with score := p0.score + 1 } :: post) ∧
    (tick s now now2 g).spawnLog = [] ∧
    (tick s now now2 g).world.nextCoinId = s.nextCoinId ∧
    (tick s now now2 g).world.coins.Sublist s.coins ∧
    (tick s now now2 g).world.nextCoinSpawn = s.nextCoinSpawn := by
  rw [tick_players] at hq
  cases hw : (collisionLoop s.players s.coins).winner with
  | none =>
    obtain ⟨q2, hq2, h2⟩ := forall₂_getPlayer (fun _ _ h => h.1) (collisionLoop_no_winner hw) hp
    rw [hq2] at hq
    cases hq
    rcases h2.2 with h | h
    · omega
    · simp only [WIN_SCORE] at h
      omega
  | some w =>
    obtain ⟨pre, pre1, p0, post, h1, h2, h3, h4, h5⟩ := collisionLoop_winner hw
    have hid : p0.id = id := by
      rw [h1] at hp
      rw [h2] at hq
      cases hpre : getPlayer pre id with
      | some p1 =>
        rw [getPlayer_append_some hpre] at hp
        obtain ⟨q1, hq1, hquiet⟩ := forall₂_getPlayer (fun _ _ h => h.1) h3 hpre
        rw [getPlayer_append_some hq1] at hq
        cases hp
        cases hq
        rcases hquiet.2 with h | h
        · omega
        · simp only [WIN_SCORE] at h
          omega
      | none =>
        rw [getPlayer_append_none hpre] at hp
        rw [getPlayer_append_none (forall₂_quiet_getPlayer_none h3 hpre)] at hq
        by_contra hne
        simp only [getPlayer, hne, if_false] at hp hq
        rw [hp] at hq
        cases hq
        omega
    have hsub := collisionLoop_coins_sublist s.players s.coins
    simp only [tick, hw]
    refine ⟨by rw [← hid, h4], ⟨pre, pre1, p0, post, h1, hid, h3.length_eq.symm, h2⟩,
      trivial, trivial, hsub, trivial⟩

theorem C9_winning_tick_witness :
    getPlayer (exec (init 0 0 halfRng) fourPickups).world.players 7 =
      some ⟨7, 8388607, ⟨400, 300⟩, 4⟩ ∧
    getPlayer (tick (exec (init 0 0 halfRng) fourPickups).world 21133 21133
      halfRng).world.players 7 = some ⟨7, 8388607, ⟨400, 300⟩, 5⟩ ∧
    (tick (exec (init 0 0 halfRng) fourPickups).world 21133 21133 halfRng).effects =
      [.emit none .gameOver (.winner 7), .setTimeout .resetGame 1200] :=
  ⟨by decide, by decide,
    (C9_winning_tick (exec (init 0 0 halfRng) fourPickups).world 21133 21133 halfRng 7
      ⟨7, 8388607, ⟨400, 300⟩, 4⟩ ⟨7, 8388607, ⟨400, 300⟩, 5⟩
      (by decide) (by decide) (by decide) (by decide)).1⟩

/-! ## Reset -/

theorem resetPlayers_ids (ps : List Player) (g : Rng) :
    (resetPlayers ps g).1.map Player.id = ps.map Player.id ∧
    (resetPlayers ps g).1.map Player.color = ps.map Player.color := by
  induction ps generalizing g with
  | nil => exact ⟨rfl, rfl⟩
  | cons p ps ih =>
    obtain ⟨h1, h2⟩ := ih (randomPosition 30 g).2
    simp only [resetPlayers, List.map_cons, h1, h2, and_self]

/-- C10. resetGame, run with the clock reading `t1` at line 146 and `t2` at line
154 (both are t when the call runs at clock time t), keeps the participant ids
and colours, sets every score to 0 and every position to a point of
[30, 770) x [30, 570), empties the coin list, sets the next-spawn deadline to
t1 + 3000 and pausedUntil to t2 + 600, keeps the coin id counter, raises the
version by 1, and emits gameReset and then state, both with the new version, the
zeroed participants and an empty coin list. -/
theorem C10_resetGame_effect (s : World) (t1 t2 : Nat) (g : Rng) :
    (resetGame s t1 t2 g).world.players.map Player.id = s.players.map Player.id ∧
    (resetGame s t1 t2 g).world.players.map Player.color = s.players.map Player.color ∧
    (∀ q ∈ (resetGame s t1 t2 g).world.players, q.score = 0 ∧
      30 ≤ q.position.x ∧ q.position.x < 770 ∧ 30 ≤ q.position.y ∧ q.position.y < 570) ∧
    (resetGame s t1 t2 g).world.coins = [] ∧
    (resetGame s t1 t2 g).world.nextCoinSpawn = t1 + 3000 ∧
    (resetGame s t1 t2 g).world.pausedUntil = t2 + 600 ∧
    (resetGame s t1 t2 g).world.nextCoinId = s.nextCoinId ∧
    (resetGame s t1 t2 g).world.stateVersion = s.stateVersion + 1 ∧
    (resetGame s t1 t2 g).effects =
      [.emit none .gameReset
          (.snapshot (resetGame s t1 t2 g).world.players [] (s.stateVersion + 1)),
        .emit none .state
          (.snapshot (resetGame s t1 t2 g).world.players [] (s.stateVersion + 1))] := by
  refine ⟨(resetPlayers_ids s.players g).1, (resetPlayers_ids s.players g).2,
    resetPlayers_forall s.players g, rfl, rfl, rfl, rfl, rfl, rfl⟩

/-! ## Which messages go through the lag helpers -/

/-- C16, as amended.  In every step, each effect is a timer of a lag helper with
the delay 200 carrying currentPlayers, newPlayer, playerDisconnected or state, or
the timer that runs resetGame after 1200 ms, or an immediate emit; and the
immediate emits are gameOver, in a tick, and gameReset and state, in resetGame.
So join, leave and input steps emit nothing immediately, and the gameOver of a
winning tick and the two messages of resetGame bypass the lag helpers. -/
theorem C16_lagged_and_direct_emits (s : World) (st : Step) (e : Effect)
    (he : e ∈ (st.run s).effects) :
    (∃ target event data, e = .setTimeout (.emit target event data) 200 ∧
      event ∈ [Event.currentPlayers, Event.newPlayer, Event.playerDisconnected, Event.state]) ∨
    (e = .setTimeout .resetGame 1200 ∧ st.isTick = true) ∨
    (∃ w, e = .emit none .gameOver (.winner w) ∧ st.isTick = true) ∨
    (∃ data, (e = .emit none .gameReset data ∨ e = .emit none .state data) ∧
      st.isReset = true) := by
  cases st with
  | join id g =>
    left
    simp only [Step.run, onConnection, List.mem_cons, List.mem_singleton, List.not_mem_nil,
      or_false] at he
    rcases he with rfl | rfl
    · exact ⟨_, _, _, rfl, by decide⟩
    · exact ⟨_, _, _, rfl, by decide⟩
  | leave id =>
    left
    simp only [Step.run, onDisconnect, List.mem_singleton] at he
    subst he
    exact ⟨_, _, _, rfl, by decide⟩
  | input id dir => simp [Step.run] at he
  | resetGame t1 t2 g =>
    right; right; right
    simp only [Step.run, resetGame, List.mem_cons, List.mem_singleton, List.not_mem_nil,
      or_false] at he
    rcases he with rfl | rfl
    · exact ⟨_, Or.inl rfl, rfl⟩
    · exact ⟨_, Or.inr rfl, rfl⟩
  | tick now now2 g =>
    simp only [Step.run, tick] at he
    split at he
    · rename_i w hw
      simp only [List.mem_cons, List.mem_singleton, List.not_mem_nil, or_false] at he
      rcases he with rfl | rfl
      · exact Or.inr (Or.inr (Or.inl ⟨w, rfl, rfl⟩))
      · exact Or.inr (Or.inl ⟨rfl, rfl⟩)
    · left
      rcases List.mem_append.1 he with he | he
      · obtain ⟨d, rfl⟩ := spawnLoop_effects _ _ _ _ e he
        exact ⟨_, _, _, rfl, by decide⟩
      · split at he
        · rw [List.mem_singleton.1 he]
          exact ⟨_, _, _, rfl, by decide⟩
        · simp at he

theorem C16_lagged_and_direct_emits_witness :
    Effect.setTimeout (.emit none .playerDisconnected (.socketId 7)) 200 ∈
      ((Step.leave 7).run (exec (init 0 0 halfRng) twoJoined).world).effects ∧
    ((∃ target event data,
        Effect.setTimeout (.emit none .playerDisconnected (.socketId 7)) 200 =
          .setTimeout (.emit target event data) 200 ∧
        event ∈ [Event.currentPlayers, Event.newPlayer, Event.playerDisconnected,
          Event.state]) ∨
      (Effect.setTimeout (.emit none .playerDisconnected (.socketId 7)) 200 =
          .setTimeout .resetGame 1200 ∧ (Step.leave 7).isTick = true) ∨
      (∃ w, Effect.setTimeout (.emit none .playerDisconnected (.socketId 7)) 200 =
          .emit none .gameOver (.winner w) ∧ (Step.leave 7).isTick = true) ∨
      (∃ data, (Effect.setTimeout (.emit none .playerDisconnected (.socketId 7)) 200 =
            .emit none .gameReset data ∨
          Effect.setTimeout (.emit none .playerDisconnected (.socketId 7)) 200 =
            .emit none .state data) ∧ (Step.leave 7).isReset = true)) :=
  ⟨by decide,
    C16_lagged_and_direct_emits (exec (init 0 0 halfRng) twoJoined).world (.leave 7)
      (.setTimeout (.emit none .playerDisconnected (.socketId 7)) 200) (by decide)⟩

/-- C16 fails as stated: resetGame emits gameReset and state by `io.emit`, at once
and not through a timer of a lag helper, and so does the winning tick its
gameOver. -/
theorem C16_direct_emits :
    (resetGame (exec (init 0 0 halfRng) twoJoined).world 5000 5000 halfRng).effects =
      [.emit none .gameReset (.snapshot
          [⟨7, 8388607, ⟨400, 300⟩, 0⟩, ⟨8, 8388607, ⟨400, 300⟩, 0⟩] [] 1),
        .emit none .state (.snapshot
          [⟨7, 8388607, ⟨400, 300⟩, 0⟩, ⟨8, 8388607, ⟨400, 300⟩, 0⟩] [] 1)] ∧
    (tick (exec (init 0 0 halfRng) fourPickups).world 21133 21133 halfRng).effects =
      [.emit none .gameOver (.winner 7), .setTimeout .resetGame 1200] := by
  decide

/-! ## Coin placement -/

theorem tooClose_eq_false_iff (players : List Player) (c : Position) :
    tooClose players c = false ↔ FarFromAll players c := by
  simp only [tooClose, FarFromAll, List.any_eq_false, decide_eq_true_eq, PLAYER_RADIUS,
    COIN_RADIUS]
  constructor
  · intro h p hp
    have := h p hp
    nlinarith
  · intro h p hp
    have := h p hp
    nlinarith

theorem spawnCoinAwayFromPlayers_first (n : Nat) (players : List Player) (g : Rng) (i : Nat)
    (hi : i < n) (hfar : FarFromAll players (candidate g i))
    (hbefore : ∀ j < i, ¬ FarFromAll players (candidate g j)) :
    (spawnCoinAwayFromPlayers n players g).1 = candidate g i := by
  induction n generalizing g i with
  | zero => omega
  | succ n ih =>
    simp only [spawnCoinAwayFromPlayers]
    cases i with
    | zero =>
      have h0 : tooClose players (randomCoinPosition g).1 = false :=
        (tooClose_eq_false_iff _ _).2 hfar
      simp only [h0, Bool.false_eq_true, if_false]
      rfl
    | succ i =>
      have h0 : tooClose players (randomCoinPosition g).1 = true := by
        have := hbefore 0 (Nat.succ_pos _)
        rw [← tooClose_eq_false_iff] at this
        simpa [candidate, afterCandidates] using this
      simp only [h0, if_true]
      exact ih (randomCoinPosition g).2 i (by omega) hfar
        (fun j hj => hbefore (j + 1) (by omega))

theorem spawnCoinAwayFromPlayers_fallback (n : Nat) (players : List Player) (g : Rng)
    (hall : ∀ j < n, ¬ FarFromAll players (candidate g j)) :
    (spawnCoinAwayFromPlayers n players g).1 = candidate g n := by
  induction n generalizing g with
  | zero => rfl
  | succ n ih =>
    simp only [spawnCoinAwayFromPlayers]
    have h0 : tooClose players (randomCoinPosition g).1 = true := by
      have := hall 0 (Nat.succ_pos _)
      rw [← tooClose_eq_false_iff] at this
      simpa [candidate, afterCandidates] using this
    simp only [h0, if_true]
    exact ih (randomCoinPosition g).2 (fun j hj => hall (j + 1) (by omega))

/-- C17. Let c1, ..., c10, c11 be the candidates that successive calls of
randomCoinPosition draw (`candidate g 0`, ..., `candidate g 10`).  Then
spawnCoinAwayFromPlayers returns the first ci with i <= 10 whose squared distance
to every participant is at least 2025, and c11 if no such ci exists; so when one
of the first ten candidates qualifies, the coin that makeNewCoin builds is at
squared distance at least 2025 (distance at least 45) from every participant. -/
theorem C17_first_far_candidate (s : World) (g : Rng) :
    (∀ i, i < 10 → FarFromAll s.players (candidate g i) →
      (∀ j, j < i → ¬ FarFromAll s.players (candidate g j)) →
      (spawnCoinAwayFromPlayers 10 s.players g).1 = candidate g i) ∧
    ((∀ j, j < 10 → ¬ FarFromAll s.players (candidate g j)) →
      (spawnCoinAwayFromPlayers 10 s.players g).1 = candidate g 10) ∧
    ((∃ i, i < 10 ∧ FarFromAll s.players (candidate g i)) →
      ∀ p ∈ s.players,
        2025 ≤ ((makeNewCoin s g).1.x - p.position.x) ^ 2 +
          ((makeNewCoin s g).1.y - p.position.y) ^ 2) := by
  refine ⟨fun i hi hfar hb => spawnCoinAwayFromPlayers_first 10 s.players g i hi hfar hb,
    fun hall => spawnCoinAwayFromPlayers_fallback 10 s.players g hall, ?_⟩
  rintro ⟨i, hi, hfar⟩
  classical
  have hex : ∃ k, k < 10 ∧ FarFromAll s.players (candidate g k) := ⟨i, hi, hfar⟩
  have hm : Nat.find hex < 10 ∧ FarFromAll s.players (candidate g (Nat.find hex)) :=
    Nat.find_spec hex
  have hmin : ∀ j, j < Nat.find hex → ¬ FarFromAll s.players (candidate g j) := by
    intro j hj hf
    exact Nat.find_min hex hj ⟨by omega, hf⟩
  have hres := spawnCoinAwayFromPlayers_first 10 s.players g (Nat.find hex) hm.1 hm.2 hmin
  have hfar2 : FarFromAll s.players (spawnCoinAwayFromPlayers 10 s.players g).1 := by
    rw [hres]
    exact hm.2
  exact hfar2

/-! ## The catch-up loop -/

theorem spawnLoop_deadline (fuel now : Nat) (s : World) (g : Rng) :
    (spawnLoop fuel now s g).world.nextCoinSpawn =
      s.nextCoinSpawn + 3000 * (spawnLoop fuel now s g).spawnLog.length ∧
    (spawnLoop fuel now s g).effects.length = (spawnLoop fuel now s g).spawnLog.length ∧
    ((spawnLoop fuel now s g).spawnLog.length ≠ 0 →
      s.nextCoinSpawn + 3000 * ((spawnLoop fuel now s g).spawnLog.length - 1) ≤ now) := by
  induction fuel generalizing s g with
  | zero => simp [spawnLoop]
  | succ n ih =>
    unfold spawnLoop
    split
    · rename_i hc
      obtain ⟨h1, h2, h3⟩ := ih
        { (makeNewCoin s g).2.1 with
            coins := (makeNewCoin s g).2.1.coins ++ [(makeNewCoin s g).1],
            nextCoinSpawn := (makeNewCoin s g).2.1.nextCoinSpawn + COIN_RESPAWN_INTERVAL }
        (makeNewCoin s g).2.2
      simp only [makeNewCoin, COIN_RESPAWN_INTERVAL] at h1 h3
      refine ⟨?_, ?_, ?_⟩
      · simp only [h1, List.length_cons, makeNewCoin, COIN_RESPAWN_INTERVAL]
        omega
      · simp only [List.length_cons, h2]
      · intro _
        simp only [List.length_cons, Nat.add_sub_cancel, makeNewCoin, COIN_RESPAWN_INTERVAL]
        by_cases hL : (spawnLoop n now
            { (makeNewCoin s g).2.1 with
                coins := (makeNewCoin s g).2.1.coins ++ [(makeNewCoin s g).1],
                nextCoinSpawn := (makeNewCoin s g).2.1.nextCoinSpawn + COIN_RESPAWN_INTERVAL }
            (makeNewCoin s g).2.2).spawnLog.length = 0
        · simp only [makeNewCoin, COIN_RESPAWN_INTERVAL] at hL
          rw [hL]
          omega
        · have := h3 (by simpa only [makeNewCoin, COIN_RESPAWN_INTERVAL] using hL)
          simp only [makeNewCoin, COIN_RESPAWN_INTERVAL] at hL
          omega
    · simp

/-- C18. In a tick without a win, at clock time `now` and with next-spawn deadline
d = `s.nextCoinSpawn`, the catch-up loop ends (any bound on its iterations from
`now + 1 - d` on gives the same run, and the loop is left with the deadline above
`now`).  If now < d it spawns no coin and leaves d as it is; otherwise it appends
exactly k = (now - d) / 3000 + 1 new coins to the end of the coin list and leaves
the deadline at d + 3000 * k, where d + 3000 * k - 3000 <= now < d + 3000 * k.
It broadcasts one state snapshot per spawned coin, each through the lag helper;
the final broadcast of the tick follows when `now2` has reached pausedUntil. -/
theorem C18_catch_up_loop (s : World) (now now2 : Nat) (g : Rng)
    (hw : (collisionLoop s.players s.coins).winner = none) :
    (∀ fuel, now + 1 - s.nextCoinSpawn ≤ fuel →
      spawnLoop fuel now
          { s with players := (collisionLoop s.players s.coins).players,
                   coins := (collisionLoop s.players s.coins).coins } g =
        spawnLoop (now + 1 - s.nextCoinSpawn) now
          { s with players := (collisionLoop s.players s.coins).players,
                   coins := (collisionLoop s.players s.coins).coins } g) ∧
    now < (tick s now now2 g).world.nextCoinSpawn ∧
    (tick s now now2 g).world.coins =
      (collisionLoop s.players s.coins).coins ++ (tick s now now2 g).spawnLog ∧
    (now < s.nextCoinSpawn →
      (tick s now now2 g).spawnLog = [] ∧
      (tick s now now2 g).world.nextCoinSpawn = s.nextCoinSpawn) ∧
    (s.nextCoinSpawn ≤ now →
      (tick s now now2 g).spawnLog.length = (now - s.nextCoinSpawn) / 3000 + 1 ∧
      (tick s now now2 g).world.nextCoinSpawn =
        s.nextCoinSpawn + 3000 * ((now - s.nextCoinSpawn) / 3000 + 1) ∧
      s.nextCoinSpawn + 3000 * ((now - s.nextCoinSpawn) / 3000 + 1) - 3000 ≤ now ∧
      now < s.nextCoinSpawn + 3000 * ((now - s.nextCoinSpawn) / 3000 + 1)) ∧
    (∃ spawnEffects, (tick s now now2 g).effects =
        spawnEffects ++
          (if now2 ≥ s.pausedUntil then
            [broadcastWithLag .state (snapshot (tick s now now2 g).world) 200]
          else []) ∧
      spawnEffects.length = (tick s now now2 g).spawnLog.length ∧
      ∀ e ∈ spawnEffects, ∃ data, e = broadcastWithLag .state data 200) := by
  have hexit := spawnLoop_exit (now + 1 - s.nextCoinSpawn) now
    { s with players := (collisionLoop s.players s.coins).players,
             coins := (collisionLoop s.players s.coins).coins } g (Nat.le_refl _)
  obtain ⟨hd1, hd2, hd3⟩ := spawnLoop_deadline (now + 1 - s.nextCoinSpawn) now
    { s with players := (collisionLoop s.players s.coins).players,
             coins := (collisionLoop s.players s.coins).coins } g
  have hcoins := (spawnLoop_coins (now + 1 - s.nextCoinSpawn) now
    { s with players := (collisionLoop s.players s.coins).players,
             coins := (collisionLoop s.players s.coins).coins } g).1
  have hpaused := spawnLoop_pausedUntil (now + 1 - s.nextCoinSpawn) now
    { s with players := (collisionLoop s.players s.coins).players,
             coins := (collisionLoop s.players s.coins).coins } g
  have heff := spawnLoop_effects (now + 1 - s.nextCoinSpawn) now
    { s with players := (collisionLoop s.players s.coins).players,
             coins := (collisionLoop s.players s.coins).coins } g
  simp only at hexit hd1 hd3 hcoins hpaused
  simp only [tick, hw]
  refine ⟨fun fuel hf => spawnLoop_fuel _ _ _ _ _ hf (Nat.le_refl _), hexit, hcoins, ?_, ?_, ?_⟩
  · intro hlt
    have hL : (spawnLoop (now + 1 - s.nextCoinSpawn) now
        { s with players := (collisionLoop s.players s.coins).players,
                 coins := (collisionLoop s.players s.coins).coins } g).spawnLog.length = 0 := by
      by_contra hne
      have := hd3 hne
      omega
    refine ⟨List.length_eq_zero.1 hL, ?_⟩
    rw [hd1, hL]
    omega
  · intro hle
    have hL : (spawnLoop (now + 1 - s.nextCoinSpawn) now
        { s with players := (collisionLoop s.players s.coins).players,
                 coins := (collisionLoop s.players s.coins).coins } g).spawnLog.length ≠ 0 := by
      intro h0
      rw [hd1, h0] at hexit
      omega
    have h3 := hd3 hL
    rw [hd1] at hexit
    have hk : (spawnLoop (now + 1 - s.nextCoinSpawn) now
        { s with players := (collisionLoop s.players s.coins).players,
                 coins := (collisionLoop s.players s.coins).coins } g).spawnLog.length =
        (now - s.nextCoinSpawn) / 3000 + 1 := by
      omega
    refine ⟨hk, ?_, ?_, ?_⟩
    · rw [hd1, hk]
    · omega
    · omega
  · refine ⟨_, ?_, hd2, fun e he => heff e he⟩
    rw [hpaused]
    rfl

theorem C18_catch_up_loop_witness :
    (collisionLoop (exec (init 0 0 halfRng) twoJoined).world.players
      (exec (init 0 0 halfRng) twoJoined).world.coins).winner = none ∧
    (tick (exec (init 0 0 halfRng) twoJoined).world 10000 10000 halfRng).spawnLog.length =
      (10000 - 3000) / 3000 + 1 ∧
    (tick (exec (init 0 0 halfRng) twoJoined).world 10000 10000 halfRng).world.nextCoinSpawn =
      12000 :=
  ⟨by decide,
    ((C18_catch_up_loop (exec (init 0 0 halfRng) twoJoined).world 10000 10000 halfRng
      (by decide)).2.2.2.2.1 (by decide)).1, by decide⟩

/-! ## The pause after a reset -/

theorem spawnLoop_nextCoinSpawn_le (fuel now : Nat) (s : World) (g : Rng) :
    s.nextCoinSpawn ≤ (spawnLoop fuel now s g).world.nextCoinSpawn := by
  rw [(spawnLoop_deadline fuel now s g).1]
  omega

theorem step_pause_before_spawn (s : World) (st : Step) (hp : Step.Prompt st)
    (h : s.pausedUntil ≤ s.nextCoinSpawn) :
    (st.run s).world.pausedUntil ≤ (st.run s).world.nextCoinSpawn := by
  cases st with
  | join id g => exact h
  | leave id => exact h
  | input id dir =>
    obtain ⟨-, h2, -, h4, -⟩ := onInput_fields s id dir
    simp only [Step.run, h2, h4]
    exact h
  | resetGame t1 t2 g =>
    simp only [Step.Prompt] at hp
    simp only [Step.run, resetGame, COIN_RESPAWN_INTERVAL]
    omega
  | tick now now2 g =>
    simp only [Step.run, tick]
    split
    · exact h
    · simp only [spawnLoop_pausedUntil]
      refine le_trans h ?_
      exact spawnLoop_nextCoinSpawn_le _ _
        { s with players := (collisionLoop s.players s.coins).players,
                 coins := (collisionLoop s.players s.coins).coins } _

theorem exec_pause_before_spawn (steps : List Step) (s : World)
    (hp : ∀ st ∈ steps, Step.Prompt st) (h : s.pausedUntil ≤ s.nextCoinSpawn) :
    (exec s steps).world.pausedUntil ≤ (exec s steps).world.nextCoinSpawn := by
  induction steps generalizing s with
  | nil => exact h
  | cons st rest ih =>
    exact ih _ (fun st2 h2 => hp st2 (List.mem_cons_of_mem _ h2))
      (step_pause_before_spawn s st (hp st (List.mem_cons_self _ _)) h)

/-- C19. In every world reached by steps whose resets are prompt (in particular
under a non-decreasing clock with each step run at one clock time), a tick whose
clock readings are both below pausedUntil sends no `state` message at all: the
spawn loop does not run, because pausedUntil never exceeds the next-spawn
deadline, and the final broadcast is skipped. -/
theorem C19_no_state_during_pause (s : World) (hr : ReachablePrompt s) (now now2 : Nat)
    (g : Rng) (h1 : now < s.pausedUntil) (h2 : now2 < s.pausedUntil) :
    (∀ e ∈ (tick s now now2 g).effects, isStateMessage e = false) ∧
    (tick s now now2 g).spawnLog = [] := by
  obtain ⟨t0, t1, g0, steps, hp, rfl⟩ := hr
  have hinv := exec_pause_before_spawn steps (init t0 t1 g0) hp
    (by simp [init, makeNewCoin, emptyWorld])
  simp only [tick]
  split
  · refine ⟨?_, rfl⟩
    intro e he
    simp only [List.mem_cons, List.mem_singleton, List.not_mem_nil, or_false] at he
    rcases he with rfl | rfl <;> rfl
  · have hfuel : now + 1 - (exec (init t0 t1 g0) steps).world.nextCoinSpawn = 0 := by omega
    simp only [hfuel, spawnLoop, List.nil_append]
    refine ⟨?_, trivial⟩
    intro e he
    rw [if_neg (by omega)] at he
    simp at he

theorem C19_no_state_during_pause_witness :
    ReachablePrompt
      (exec (init 0 0 halfRng) [.join 7 halfRng, .resetGame 5000 5000 halfRng]).world ∧
    (5100 : Nat) <
      (exec (init 0 0 halfRng) [.join 7 halfRng, .resetGame 5000 5000 halfRng]).world.pausedUntil ∧
    (∀ e ∈ (tick (exec (init 0 0 halfRng) [.join 7 halfRng, .resetGame 5000 5000 halfRng]).world
      5100 5100 halfRng).effects, isStateMessage e = false) :=
  have hr : ReachablePrompt
      (exec (init 0 0 halfRng) [.join 7 halfRng, .resetGame 5000 5000 halfRng]).world :=
    ⟨0, 0, halfRng, [.join 7 halfRng, .resetGame 5000 5000 halfRng],
      by
        intro st hst
        simp only [List.mem_cons, List.mem_singleton, List.not_mem_nil, or_false] at hst
        rcases hst with rfl | rfl
        · trivial
        · show 5000 ≤ 5000 + 2400
          decide,
      rfl⟩
  ⟨hr, by decide,
    (C19_no_state_during_pause _ hr 5100 5100 halfRng (by decide) (by decide)).1⟩

/-! ## Scores and coins in one tick -/

theorem scanCoins_length {p : Position} {cs rest : List Coin} {c : Coin}
    (h : scanCoins p cs = some (c, rest)) : rest.length + 1 = cs.length := by
  obtain ⟨pre, post, rfl, rfl, -, -⟩ := scanCoins_some h
  simp only [List.length_append, List.length_cons]
  omega

theorem collisionLoop_total (ps : List Player) (cs : List Coin) :
    ((collisionLoop ps cs).players.map Player.score).sum + (collisionLoop ps cs).coins.length =
      (ps.map Player.score).sum + cs.length := by
  induction ps generalizing cs with
  | nil => rfl
  | cons p ps ih =>
    cases hs : scanCoins p.position cs with
    | none =>
      rw [collisionLoop_cons_none hs]
      simp only [List.map_cons, List.sum_cons]
      have := ih cs
      omega
    | some r =>
      obtain ⟨c, rest⟩ := r
      have hlen := scanCoins_length hs
      by_cases hw : WIN_SCORE ≤ p.score + 1
      · rw [collisionLoop_cons_win hs hw]
        simp only [List.map_cons, List.sum_cons]
        omega
      · rw [collisionLoop_cons_pick hs hw]
        simp only [List.map_cons, List.sum_cons]
        have := ih rest
        omega

/-- C20. In every tick each participant's score is kept or raised by exactly 1
(entry by entry, in enumeration order), and the total rise of the scores equals
the number of coins that pickups removed: the coin list after the tick is a
sublist `kept` of the list before, followed by the coins spawned in the tick, and
the sum of the scores after plus the length of `kept` equals the sum of the
scores before plus the length of the list before.  So no coin is credited twice
and no score rises without a coin leaving the list. -/
theorem C20_scores_match_removed_coins (s : World) (now now2 : Nat) (g : Rng) :
    List.Forall₂ (fun p q => q.id = p.id ∧ (q.score = p.score ∨ q.score = p.score + 1))
      s.players (tick s now now2 g).world.players ∧
    (∃ kept, (tick s now now2 g).world.coins = kept ++ (tick s now now2 g).spawnLog ∧
      kept.Sublist s.coins ∧
      ((tick s now now2 g).world.players.map Player.score).sum + kept.length =
        (s.players.map Player.score).sum + s.coins.length) := by
  refine ⟨?_, (collisionLoop s.players s.coins).coins, (tick_coins s now now2 g).1,
    collisionLoop_coins_sublist _ _, ?_⟩
  · rw [tick_players]
    exact (collisionLoop_players s.players s.coins).imp (fun _ _ h => ⟨h.1, h.2.2.2⟩)
  · rw [tick_players]
    exact collisionLoop_total s.players s.coins

end Server

namespace Client

/-! ## Render-step smoothing -/

theorem interpolate_iterate_target (p : VisualEntity) (n : Nat) :
    (interpolate^[n] p).targetX = p.targetX ∧ (interpolate^[n] p).targetY = p.targetY := by
  induction n generalizing p with
  | zero => exact ⟨rfl, rfl⟩
  | succ n ih =>
    rw [Function.iterate_succ_apply]
    exact ih (interpolate p)

theorem offset_interpolate (p : VisualEntity) :
    offsetX (interpolate p) = 9 / 10 * offsetX p ∧
    offsetY (interpolate p) = 9 / 10 * offsetY p := by
  simp only [offsetX, offsetY, interpolate, alpha]
  constructor <;> ring

theorem offset_iterate (p : VisualEntity) (n : Nat) :
    offsetX (interpolate^[n] p) = (9 / 10) ^ n * offsetX p ∧
    offsetY (interpolate^[n] p) = (9 / 10) ^ n * offsetY p := by
  induction n generalizing p with
  | zero => simp
  | succ n ih =>
    rw [Function.iterate_succ_apply]
    obtain ⟨hx, hy⟩ := ih (interpolate p)
    rw [hx, hy, (offset_interpolate p).1, (offset_interpolate p).2]
    constructor <;> ring

theorem updateAndDrawPlayers_iterate (fp : List (Nat × VisualEntity)) (n : Nat) :
    updateAndDrawPlayers^[n] fp = fp.map fun e => (e.1, interpolate^[n] e.2) := by
  induction n generalizing fp with
  | zero => simp
  | succ n ih =>
    rw [Function.iterate_succ_apply, ih]
    simp [updateAndDrawPlayers, Function.iterate_succ_apply]

theorem pow_decay (d : ℚ) (ε : ℚ) (hε : 0 < ε) :
    ∃ N : Nat, ∀ m, N ≤ m → |(9 / 10 : ℚ) ^ m * d| < ε := by
  have h9 : (9 / 10 : ℚ) < 1 := by norm_num
  have h0 : (0 : ℚ) < 9 / 10 := by norm_num
  obtain ⟨N, hN⟩ := exists_pow_lt_of_lt_one (show (0 : ℚ) < ε / (|d| + 1) by positivity) h9
  refine ⟨N, fun m hm => ?_⟩
  have hpos : (0 : ℚ) < |d| + 1 := by positivity
  have hm2 : (9 / 10 : ℚ) ^ m ≤ (9 / 10) ^ N :=
    pow_le_pow_of_le_one h0.le h9.le hm
  rw [abs_mul, abs_of_pos (pow_pos h0 m)]
  have h1 : (9 / 10 : ℚ) ^ m < ε / (|d| + 1) := lt_of_le_of_lt hm2 hN
  have h2 : (9 / 10 : ℚ) ^ m * (|d| + 1) < ε := (lt_div_iff₀ hpos).1 h1
  have h3 : (9 / 10 : ℚ) ^ m * |d| ≤ (9 / 10) ^ m * (|d| + 1) :=
    mul_le_mul_of_nonneg_left (by linarith) (pow_pos h0 m).le
  linarith

/-- C7. With exact arithmetic, alpha = 1/10 and a target that stays fixed, one
render step of updateAndDrawPlayers interpolates every entry, and on each axis it
multiplies the offset target - current by 9/10; after n steps the offset is
(9/10)^n times the initial one.  Hence the offset keeps its sign (no overshoot),
its magnitude never grows, it tends to 0, and after n steps it is 0 only if
current was equal to target from the start. -/
theorem C7_smoothing_decay (fp : List (Nat × VisualEntity)) (p : VisualEntity) (n : Nat) :
    updateAndDrawPlayers^[n] fp = fp.map (fun e => (e.1, interpolate^[n] e.2)) ∧
    ((interpolate^[n] p).targetX = p.targetX ∧ (interpolate^[n] p).targetY = p.targetY) ∧
    (offsetX (interpolate p) = 9 / 10 * offsetX p ∧
      offsetY (interpolate p) = 9 / 10 * offsetY p) ∧
    (offsetX (interpolate^[n] p) = (9 / 10) ^ n * offsetX p ∧
      offsetY (interpolate^[n] p) = (9 / 10) ^ n * offsetY p) ∧
    ((0 ≤ offsetX p → 0 ≤ offsetX (interpolate^[n] p)) ∧
      (offsetX p ≤ 0 → offsetX (interpolate^[n] p) ≤ 0) ∧
      (0 ≤ offsetY p → 0 ≤ offsetY (interpolate^[n] p)) ∧
      (offsetY p ≤ 0 → offsetY (interpolate^[n] p) ≤ 0)) ∧
    (|offsetX (interpolate^[n + 1] p)| ≤ |offsetX (interpolate^[n] p)| ∧
      |offsetY (interpolate^[n + 1] p)| ≤ |offsetY (interpolate^[n] p)|) ∧
    (∀ ε : ℚ, 0 < ε → ∃ N : Nat, ∀ m, N ≤ m →
      |offsetX (interpolate^[m] p)| < ε ∧ |offsetY (interpolate^[m] p)| < ε) ∧
    ((offsetX (interpolate^[n] p) = 0 ↔ p.currentX = p.targetX) ∧
      (offsetY (interpolate^[n] p) = 0 ↔ p.currentY = p.targetY)) := by
  have hpow : (0 : ℚ) < (9 / 10) ^ n := by positivity
  obtain ⟨hx, hy⟩ := offset_iterate p n
  obtain ⟨hx1, hy1⟩ := offset_iterate p (n + 1)
  refine ⟨updateAndDrawPlayers_iterate fp n, interpolate_iterate_target p n,
    offset_interpolate p, ⟨hx, hy⟩, ⟨?_, ?_, ?_, ?_⟩, ⟨?_, ?_⟩, ?_, ⟨?_, ?_⟩⟩
  · intro h; rw [hx]; exact mul_nonneg hpow.le h
  · intro h; rw [hx]; exact mul_nonpos_of_nonneg_of_nonpos hpow.le h
  · intro h; rw [hy]; exact mul_nonneg hpow.le h
  · intro h; rw [hy]; exact mul_nonpos_of_nonneg_of_nonpos hpow.le h
  · rw [hx1, hx, pow_succ, abs_mul, abs_mul, abs_mul, abs_of_pos hpow,
      abs_of_pos (show (0 : ℚ) < 9 / 10 by norm_num)]
    nlinarith [abs_nonneg (offsetX p), mul_nonneg hpow.le (abs_nonneg (offsetX p))]
  · rw [hy1, hy, pow_succ, abs_mul, abs_mul, abs_mul, abs_of_pos hpow,
      abs_of_pos (show (0 : ℚ) < 9 / 10 by norm_num)]
    nlinarith [abs_nonneg (offsetY p), mul_nonneg hpow.le (abs_nonneg (offsetY p))]
  · intro ε hε
    obtain ⟨N1, h1⟩ := pow_decay (offsetX p) ε hε
    obtain ⟨N2, h2⟩ := pow_decay (offsetY p) ε hε
    refine ⟨max N1 N2, fun m hm => ?_⟩
    rw [(offset_iterate p m).1, (offset_iterate p m).2]
    exact ⟨h1 m (le_trans (le_max_left _ _) hm), h2 m (le_trans (le_max_right _ _) hm)⟩
  · rw [hx, mul_eq_zero]
    constructor
    · rintro (h | h)
      · exact absurd h hpow.ne'
      · unfold offsetX at h; linarith
    · intro h; right; unfold offsetX; linarith
  · rw [hy, mul_eq_zero]
    constructor
    · rintro (h | h)
      · exact absurd h hpow.ne'
      · unfold offsetY at h; linarith
    · intro h; right; unfold offsetY; linarith



/-! ## Tables keyed by id -/

theorem getEntry_setEntry {α : Type} (k id : Nat) (v : α) (l : List (Nat × α)) :
    getEntry (setEntry k v l) id = if k = id then some v else getEntry l id := by
  induction l with
  | nil => simp [setEntry, getEntry]
  | cons e rest ih =>
    simp only [setEntry]
    by_cases he : e.1 = k
    · simp only [he, if_true, getEntry]
      by_cases h1 : k = id
      · simp [h1]
      · simp [h1]
    · simp only [he, if_false, getEntry, ih]
      by_cases h1 : e.1 = id
      · have : ¬ k = id := fun h => he (h1.trans h.symm)
        simp [h1, this]
      · simp [h1]

theorem getEntry_modifyEntry {α : Type} (k id : Nat) (f : α → α) (l : List (Nat × α)) :
    getEntry (modifyEntry k f l) id =
      if k = id then (getEntry l id).map f else getEntry l id := by
  induction l with
  | nil => simp [modifyEntry, getEntry]
  | cons e rest ih =>
    simp only [modifyEntry]
    by_cases he : e.1 = k
    · simp only [he, if_true, getEntry]
      by_cases h1 : k = id
      · simp [h1]
      · simp [h1]
    · simp only [he, if_false, getEntry, ih]
      by_cases h1 : e.1 = id
      · have : ¬ k = id := fun h => he (h1.trans h.symm)
        simp [h1, this]
      · simp [h1]

theorem modifyEntry_eq_self {α : Type} {k : Nat} {f : α → α} {l : List (Nat × α)} {w : α}
    (h : getEntry l k = some w) (hf : f w = w) : modifyEntry k f l = l := by
  induction l with
  | nil => rfl
  | cons e rest ih =>
    simp only [getEntry] at h
    simp only [modifyEntry]
    by_cases he : e.1 = k
    · simp only [he, if_true, Option.some.injEq] at h ⊢
      rw [h, hf, ← h, ← he]
    · simp only [he, if_false] at h ⊢
      rw [ih h]

theorem getEntry_eq_none {α : Type} {l : List (Nat × α)} {id : Nat} :
    getEntry l id = none ↔ id ∉ l.map Prod.fst := by
  induction l with
  | nil => simp [getEntry]
  | cons e rest ih =>
    simp only [getEntry, List.map_cons, List.mem_cons, not_or]
    by_cases he : e.1 = id
    · simp [he]
    · simp only [he, if_false, ih]
      constructor
      · intro h
        exact ⟨fun h2 => he h2.symm, h⟩
      · intro h
        exact h.2

theorem getEntry_of_mem {α : Type} {l : List (Nat × α)} (hn : (l.map Prod.fst).Nodup)
    {e : Nat × α} (he : e ∈ l) : getEntry l e.1 = some e.2 := by
  induction l with
  | nil => simp at he
  | cons a rest ih =>
    simp only [List.map_cons, List.nodup_cons] at hn
    rcases List.mem_cons.1 he with rfl | he
    · simp [getEntry]
    · have hne : a.1 ≠ e.1 := by
        intro h
        exact hn.1 (h ▸ List.mem_map_of_mem Prod.fst he)
      simp only [getEntry, hne, if_false]
      exact ih hn.2 he

theorem getEntry_filter {α : Type} (q : Nat → Bool) (l : List (Nat × α)) (id : Nat) :
    getEntry (l.filter fun e => q e.1) id = if q id = true then getEntry l id else none := by
  induction l with
  | nil => simp [getEntry]
  | cons e rest ih =>
    simp only [List.filter_cons]
    by_cases hq : q e.1 = true
    · simp only [hq, if_true, getEntry, ih]
      by_cases he : e.1 = id
      · subst he
        simp [hq]
      · simp [he]
    · simp only [hq, Bool.false_eq_true, if_false, ih, getEntry]
      by_cases he : e.1 = id
      · subst he
        simp [hq]
      · simp [he]

/-! ## The state handler -/

theorem getEntry_stateStep (fp : List (Nat × VisualEntity)) (e : Nat × Option WirePlayer)
    (id : Nat) :
    getEntry (stateStep fp e) id =
      match positioned e.2 with
      | some (p, pos) =>
        if e.1 = id then some (merged (getEntry fp e.1) pos p) else getEntry fp id
      | none => getEntry fp id := by
  obtain ⟨k, w⟩ := e
  cases w with
  | none => rfl
  | some p =>
    cases hpos : p.position with
    | none => simp [stateStep, positioned, hpos]
    | some pos =>
      cases hg : getEntry fp k with
      | none =>
        simp only [stateStep, positioned, hpos, hg, merged, getEntry_setEntry]
      | some v =>
        simp only [stateStep, positioned, hpos, hg, merged, getEntry_modifyEntry]
        by_cases hk : k = id
        · subst hk
          simp [hg]
        · simp [hk]

theorem getEntry_foldl_stateStep (S : List (Nat × Option WirePlayer))
    (hn : (S.map Prod.fst).Nodup) (fp : List (Nat × VisualEntity)) (id : Nat) :
    getEntry (S.foldl stateStep fp) id =
      match (getEntry S id).bind positioned with
      | some (p, pos) => some (merged (getEntry fp id) pos p)
      | none => getEntry fp id := by
  induction S generalizing fp with
  | nil => rfl
  | cons e rest ih =>
    simp only [List.map_cons, List.nodup_cons] at hn
    rw [List.foldl_cons, ih hn.2, getEntry_stateStep]
    by_cases he : e.1 = id
    · subst he
      have hrest : getEntry rest e.1 = none := getEntry_eq_none.2 hn.1
      simp only [hrest, getEntry, if_true, Option.none_bind, Option.some_bind]
    · simp only [getEntry, he, if_false]
      cases positioned e.2 with
      | none => rfl
      | some r => rfl

theorem getEntry_onState (st : ClientState) (S : Snapshot)
    (hn : (S.players.map Prod.fst).Nodup) (id : Nat) :
    getEntry (onState st S).frontendPlayers id =
      if reported S.players id = true then
        match (getEntry S.players id).bind positioned with
        | some (p, pos) => some (merged (getEntry st.frontendPlayers id) pos p)
        | none => getEntry st.frontendPlayers id
      else none := by
  simp only [onState]
  rw [getEntry_filter (reported S.players), getEntry_foldl_stateStep S.players hn]

theorem positioned_some {e : Option WirePlayer} {p : WirePlayer} {pos : WirePosition}
    (h1 : e = some p) (h2 : p.position = some pos) : positioned e = some (p, pos) := by
  subst h1
  simp [positioned, h2]

theorem mem_of_getEntry {α : Type} {l : List (Nat × α)} {id : Nat} {v : α}
    (h : getEntry l id = some v) : (id, v) ∈ l := by
  induction l with
  | nil => simp [getEntry] at h
  | cons e rest ih =>
    simp only [getEntry] at h
    by_cases he : e.1 = id
    · simp only [he, if_true, Option.some.injEq] at h
      rw [← he, ← h]
      exact List.mem_cons_self _ _
    · simp only [he, if_false] at h
      exact List.mem_cons_of_mem _ (ih h)

theorem mem_keys_iff {α : Type} {l : List (Nat × α)} {id : Nat} :
    id ∈ l.map Prod.fst ↔ ∃ v, getEntry l id = some v := by
  constructor
  · intro h
    cases hg : getEntry l id with
    | none => exact absurd h (getEntry_eq_none.1 hg)
    | some v => exact ⟨v, rfl⟩
  · rintro ⟨v, hv⟩
    by_contra hc
    rw [getEntry_eq_none.2 hc] at hv
    cases hv

/-- C11. For a `state` snapshot S whose participants all carry position data
(the keys of S being pairwise distinct, as the keys of an object are), after the
state handler the known ids are exactly the ids of S; an id already known keeps
currentX and currentY, has targetX and targetY equal to the position in S, and
takes the colour and the score that S gives (where S gives none, the one it had
is kept); an id not known before has currentX = targetX = S.x and
currentY = targetY = S.y. -/
theorem C11_state_snapshot_merge (st : ClientState) (S : Snapshot)
    (hn : (S.players.map Prod.fst).Nodup)
    (hpos : ∀ e ∈ S.players, ∃ p pos, e.2 = some p ∧ p.position = some pos) :
    (∀ id, id ∈ (onState st S).frontendPlayers.map Prod.fst ↔ id ∈ S.players.map Prod.fst) ∧
    (∀ id v p pos, getEntry st.frontendPlayers id = some v →
      getEntry S.players id = some (some p) → p.position = some pos →
      ∃ w, getEntry (onState st S).frontendPlayers id = some w ∧
        w.currentX = v.currentX ∧ w.currentY = v.currentY ∧
        w.targetX = pos.x ∧ w.targetY = pos.y ∧
        (∀ c, p.color = some c → w.color = some c) ∧ (p.color = none → w.color = v.color) ∧
        (∀ n, p.score = some n → w.score = some n) ∧ (p.score = none → w.score = v.score)) ∧
    (∀ id p pos, getEntry st.frontendPlayers id = none →
      getEntry S.players id = some (some p) → p.position = some pos →
      ∃ w, getEntry (onState st S).frontendPlayers id = some w ∧
        w.currentX = pos.x ∧ w.targetX = pos.x ∧ w.currentY = pos.y ∧ w.targetY = pos.y) := by
  refine ⟨fun id => ?_, fun id v p pos hv hp hpp => ?_, fun id p pos hv hp hpp => ?_⟩
  · rw [mem_keys_iff, mem_keys_iff, getEntry_onState st S hn]
    constructor
    · rintro ⟨w, hw⟩
      cases hg : getEntry S.players id with
      | none => simp [reported, hg] at hw
      | some e => exact ⟨e, rfl⟩
    · rintro ⟨e, he⟩
      obtain ⟨p, pos, h1, h2⟩ := hpos _ (mem_of_getEntry he)
      simp only at h1
      subst h1
      simp only [reported, he, if_true, Option.some_bind, positioned_some rfl h2]
      exact ⟨_, rfl⟩
  · refine ⟨updateEntry pos p v, ?_, rfl, rfl, rfl, rfl, ?_, ?_, ?_, ?_⟩
    · rw [getEntry_onState st S hn]
      simp only [reported, hp, if_true, Option.some_bind, positioned_some rfl hpp, hv, merged]
    · intro c hc; simp [updateEntry, hc]
    · intro hc; simp [updateEntry, hc]
    · intro n hc; simp [updateEntry, hc]
    · intro hc; simp [updateEntry, hc]
  · refine ⟨newEntry pos p, ?_, rfl, rfl, rfl, rfl⟩
    rw [getEntry_onState st S hn]
    simp only [reported, hp, if_true, Option.some_bind, positioned_some rfl hpp, hv, merged]

theorem C11_state_snapshot_merge_witness :
    (sampleSnapshot.players.map Prod.fst).Nodup ∧
    (onState sampleState sampleSnapshot).frontendPlayers =
      [(7, ⟨0, 0, 10, 20, some 6, some 1⟩), (8, ⟨1, 2, 1, 2, some 9, some 0⟩)] ∧
    (∀ id, id ∈ (onState sampleState sampleSnapshot).frontendPlayers.map Prod.fst ↔
      id ∈ sampleSnapshot.players.map Prod.fst) :=
  ⟨by decide, by decide,
    (C11_state_snapshot_merge sampleState sampleSnapshot (by decide)
      (by
        intro e he
        simp only [sampleSnapshot, List.mem_cons, List.mem_singleton, List.not_mem_nil,
          or_false] at he
        rcases he with rfl | rfl <;> exact ⟨_, _, rfl, rfl⟩)).1⟩

/-! ## The full-snapshot handlers -/

theorem setEntry_new {α : Type} {id : Nat} (v : α) {l : List (Nat × α)}
    (h : id ∉ l.map Prod.fst) : setEntry id v l = l ++ [(id, v)] := by
  induction l with
  | nil => rfl
  | cons e rest ih =>
    simp only [List.map_cons, List.mem_cons, not_or] at h
    have hne : ¬ e.1 = id := fun h2 => h.1 h2.symm
    simp only [setEntry, hne, if_false, ih h.2, List.cons_append]

theorem fillLoop_spec (mk : WirePosition → WirePlayer → VisualEntity)
    (S : List (Nat × Option WirePlayer)) (fp : List (Nat × VisualEntity))
    (hn : (S.map Prod.fst).Nodup) (hfresh : ∀ e ∈ S, e.1 ∉ fp.map Prod.fst)
    (hpos : ∀ e ∈ S, ∃ p pos, e.2 = some p ∧ p.position = some pos) :
    ∃ out, fillLoop mk S fp = .ok (fp ++ out) ∧ out.map Prod.fst = S.map Prod.fst ∧
      ∀ e ∈ S, ∀ p pos, e.2 = some p → p.position = some pos → (e.1, mk pos p) ∈ out := by
  induction S generalizing fp with
  | nil => exact ⟨[], by simp [fillLoop], rfl, by simp⟩
  | cons e rest ih =>
    simp only [List.map_cons, List.nodup_cons] at hn
    obtain ⟨p, pos, h1, h2⟩ := hpos e (List.mem_cons_self _ _)
    have hset := setEntry_new (mk pos p) (hfresh e (List.mem_cons_self _ _))
    obtain ⟨out, ho1, ho2, ho3⟩ := ih (fp ++ [(e.1, mk pos p)]) hn.2
      (by
        intro e2 he2
        simp only [List.map_append, List.map_cons, List.map_nil, List.mem_append,
          List.mem_singleton, not_or]
        refine ⟨hfresh e2 (List.mem_cons_of_mem _ he2), ?_⟩
        intro h
        exact hn.1 (h ▸ List.mem_map_of_mem Prod.fst he2))
      (fun e2 he2 => hpos e2 (List.mem_cons_of_mem _ he2))
    refine ⟨(e.1, mk pos p) :: out, ?_, ?_, ?_⟩
    · simp only [fillLoop, h1, h2, hset, ho1]
      simp
    · simp [ho2]
    · intro e2 he2 p2 pos2 hp2 hpos2
      rcases List.mem_cons.1 he2 with rfl | he2
      · rw [h1] at hp2
        cases hp2
        rw [h2] at hpos2
        cases hpos2
        exact List.mem_cons_self _ _
      · exact List.mem_cons_of_mem _ (ho3 e2 he2 p2 pos2 hp2 hpos2)

theorem fillLoop_entries (mk : WirePosition → WirePlayer → VisualEntity)
    (S : List (Nat × Option WirePlayer)) (hn : (S.map Prod.fst).Nodup)
    (hpos : ∀ e ∈ S, ∃ p pos, e.2 = some p ∧ p.position = some pos) :
    ∃ fp, fillLoop mk S [] = .ok fp ∧ fp.map Prod.fst = S.map Prod.fst ∧
      ∀ id p pos, getEntry S id = some (some p) → p.position = some pos →
        getEntry fp id = some (mk pos p) := by
  obtain ⟨out, h1, h2, h3⟩ := fillLoop_spec mk S [] hn (by simp) hpos
  refine ⟨out, by simpa using h1, h2, ?_⟩
  intro id p pos hg hp
  have hmem := h3 _ (mem_of_getEntry hg) p pos rfl hp
  exact getEntry_of_mem (by rw [h2]; exact hn) hmem

/-- C12. For a full snapshot S (the payload of `gameReset` or of `currentPlayers`)
whose participants all carry position data, the keys of S being pairwise
distinct, the handler returns, what it leaves does not depend on the table it
found, the ids of the new table are the ids of S in the same order, and every
entry has currentX = targetX = S.x and currentY = targetY = S.y, with the score
of the snapshot (`gameReset` copies colour and score as they are;
`currentPlayers` puts `'#ffffff'` for a missing colour and 0 for a missing
score). -/
theorem C12_full_snapshot_replaces (st st2 : ClientState) (S : Snapshot)
    (hn : (S.players.map Prod.fst).Nodup)
    (hpos : ∀ e ∈ S.players, ∃ p pos, e.2 = some p ∧ p.position = some pos) :
    onGameReset st S = onGameReset st2 S ∧
    onCurrentPlayers st S = onCurrentPlayers st2 S ∧
    (∃ fp, onGameReset st S = .completed ⟨fp, S.coins.getD []⟩ ∧
      fp.map Prod.fst = S.players.map Prod.fst ∧
      ∀ id p pos, getEntry S.players id = some (some p) → p.position = some pos →
        getEntry fp id = some ⟨pos.x, pos.y, pos.x, pos.y, p.color, p.score⟩) ∧
    (∃ fp, onCurrentPlayers st S = .completed ⟨fp, S.coins.getD []⟩ ∧
      fp.map Prod.fst = S.players.map Prod.fst ∧
      ∀ id p pos, getEntry S.players id = some (some p) → p.position = some pos →
        getEntry fp id =
          some ⟨pos.x, pos.y, pos.x, pos.y, some (p.color.getD white), some (p.score.getD 0)⟩) := by
  refine ⟨rfl, rfl, ?_, ?_⟩
  · obtain ⟨fp, h1, h2, h3⟩ := fillLoop_entries resetEntry S.players hn hpos
    exact ⟨fp, by simp only [onGameReset, h1, finish], h2, h3⟩
  · obtain ⟨fp, h1, h2, h3⟩ := fillLoop_entries newEntry S.players hn hpos
    exact ⟨fp, by simp only [onCurrentPlayers, h1, finish], h2, h3⟩

theorem C12_full_snapshot_replaces_witness :
    (sampleSnapshot.players.map Prod.fst).Nodup ∧
    onGameReset sampleState sampleSnapshot =
      .completed ⟨[(7, ⟨10, 20, 10, 20, some 6, some 1⟩), (8, ⟨1, 2, 1, 2, some 9, some 0⟩)],
        [⟨1, 400, 300⟩]⟩ ∧
    onGameReset sampleState sampleSnapshot = onGameReset ⟨[], []⟩ sampleSnapshot :=
  ⟨by decide, by decide,
    (C12_full_snapshot_replaces sampleState ⟨[], []⟩ sampleSnapshot (by decide)
      (by
        intro e he
        simp only [sampleSnapshot, List.mem_cons, List.mem_singleton, List.not_mem_nil,
          or_false] at he
        rcases he with rfl | rfl <;> exact ⟨_, _, rfl, rfl⟩)).1⟩

/-! ## Order of delivery -/

/-- C13, as amended.  The state handler does not read `version`: whatever was
applied before, after a snapshot A is applied every participant that A carries
with position data has the target position of A and, where A gives a score, the
score of A.  So when B is delivered first and A after it, the table shows A, the
snapshot that arrived last, whichever of the two is the more recent. -/
theorem C13_last_delivered_wins (st : ClientState) (A B : Snapshot) (id : Nat)
    (p : WirePlayer) (pos : WirePosition)
    (hn : (A.players.map Prod.fst).Nodup)
    (hp : getEntry A.players id = some (some p)) (hpos : p.position = some pos) :
    (∃ w, getEntry (onState (onState st B) A).frontendPlayers id = some w ∧
      w.targetX = pos.x ∧ w.targetY = pos.y ∧ (∀ n, p.score = some n → w.score = some n)) ∧
    (∀ v, onState (onState st B) { A with version := v } = onState (onState st B) A) := by
  refine ⟨?_, fun v => rfl⟩
  rw [getEntry_onState _ A hn]
  simp only [reported, hp, if_true, Option.some_bind, positioned_some rfl hpos]
  refine ⟨_, rfl, ?_, ?_, ?_⟩
  · cases getEntry (onState st B).frontendPlayers id <;> rfl
  · cases getEntry (onState st B).frontendPlayers id <;> rfl
  · intro n hn2
    cases getEntry (onState st B).frontendPlayers id <;>
      simp [merged, newEntry, updateEntry, hn2]

theorem C13_last_delivered_wins_witness :
    (olderSnapshot.players.map Prod.fst).Nodup ∧
    getEntry olderSnapshot.players 7 = some (some ⟨7, some ⟨1, 1⟩, some 6, some 1⟩) ∧
    (∃ w, getEntry (onState (onState sampleState newerSnapshot) olderSnapshot).frontendPlayers 7 =
        some w ∧
      w.targetX = 1 ∧ w.targetY = 1 ∧ (∀ n, some 1 = some n → w.score = some n)) :=
  ⟨by decide, by decide,
    (C13_last_delivered_wins sampleState olderSnapshot newerSnapshot 7
      ⟨7, some ⟨1, 1⟩, some 6, some 1⟩ ⟨1, 1⟩ (by decide) (by decide) rfl).1⟩

/-- C13 fails as stated: the snapshot of version 2 puts participant 7 at (2, 2)
with score 2, the snapshot of version 1 puts it at (1, 1) with score 1; delivered
in the order version 2, version 1, they leave the target at (1, 1) and the score
at 1, those of the older snapshot. -/
theorem C13_older_snapshot_overwrites :
    olderSnapshot.version < newerSnapshot.version ∧
    getEntry (onState (onState ⟨[], []⟩ newerSnapshot) olderSnapshot).frontendPlayers 7 =
      some ⟨2, 2, 1, 1, some 6, some 1⟩ := by
  decide

/-! ## Idempotence of the state handler -/

theorem updateEntry_merged (old : Option VisualEntity) (pos : WirePosition) (p : WirePlayer) :
    updateEntry pos p (merged old pos p) = merged old pos p := by
  cases old with
  | none =>
    cases hc : p.color <;> cases hs : p.score <;> simp [merged, newEntry, updateEntry, hc, hs]
  | some v =>
    cases hc : p.color <;> cases hs : p.score <;> simp [merged, updateEntry, hc, hs]

theorem stateStep_fixed {fp : List (Nat × VisualEntity)} {e : Nat × Option WirePlayer}
    (h : ∀ p pos, positioned e.2 = some (p, pos) →
      ∃ w, getEntry fp e.1 = some w ∧ updateEntry pos p w = w) :
    stateStep fp e = fp := by
  obtain ⟨k, w⟩ := e
  cases w with
  | none => rfl
  | some p =>
    cases hpos : p.position with
    | none => simp [stateStep, hpos]
    | some pos =>
      obtain ⟨w, hw, hfix⟩ := h p pos (positioned_some rfl hpos)
      simp only at hw
      simp only [stateStep, hpos, hw]
      exact modifyEntry_eq_self hw hfix

theorem foldl_stateStep_fixed {fp : List (Nat × VisualEntity)}
    (S : List (Nat × Option WirePlayer)) (h : ∀ e ∈ S, stateStep fp e = fp) :
    S.foldl stateStep fp = fp := by
  induction S with
  | nil => rfl
  | cons e rest ih =>
    rw [List.foldl_cons, h e (List.mem_cons_self _ _)]
    exact ih (fun e2 he2 => h e2 (List.mem_cons_of_mem _ he2))

/-- C14. The state handler is idempotent: for every table and every `state`
snapshot S (the keys of S being pairwise distinct, as the keys of an object are),
applying S twice in succession leaves exactly the table and the coin list that
applying S once leaves. -/
theorem C14_state_idempotent (st : ClientState) (S : Snapshot)
    (hn : (S.players.map Prod.fst).Nodup) :
    onState (onState st S) S = onState st S := by
  have hfix : S.players.foldl stateStep (onState st S).frontendPlayers =
      (onState st S).frontendPlayers := by
    apply foldl_stateStep_fixed
    intro e he
    apply stateStep_fixed
    intro p pos hp
    have hg : getEntry S.players e.1 = some e.2 := getEntry_of_mem hn he
    have hrep : reported S.players e.1 = true := by
      cases h2 : e.2 with
      | none => rw [h2] at hp; simp [positioned] at hp
      | some q => simp [reported, hg, h2]
    refine ⟨merged (getEntry st.frontendPlayers e.1) pos p, ?_, updateEntry_merged _ _ _⟩
    rw [getEntry_onState st S hn]
    simp only [hrep, if_true, hg, Option.some_bind, hp]
  have hfilter : ((onState st S).frontendPlayers.filter fun e => reported S.players e.1) =
      (onState st S).frontendPlayers := by
    simp only [onState, List.filter_filter, Bool.and_self]
  show ClientState.mk _ _ = _
  rw [hfix, hfilter]
  rfl

theorem C14_state_idempotent_witness :
    (sampleSnapshot.players.map Prod.fst).Nodup ∧
    onState (onState sampleState sampleSnapshot) sampleSnapshot =
      onState sampleState sampleSnapshot ∧
    onState sampleState sampleSnapshot =
      ⟨[(7, ⟨0, 0, 10, 20, some 6, some 1⟩), (8, ⟨1, 2, 1, 2, some 9, some 0⟩)],
        [⟨1, 400, 300⟩]⟩ :=
  ⟨by decide, C14_state_idempotent sampleState sampleSnapshot (by decide), by decide⟩

/-! ## Participants without position data -/

/-- C15, at a payload whose first participant has no position data.  The handlers
of `state` and `newPlayer` return and make no entry for it (the `state` handler
goes on to participant 8), but the handlers of `gameReset` and `currentPlayers`
raise a `TypeError` at `p.position.x`, with an empty table: participant 8 is not
processed. -/
theorem C15_unguarded_full_snapshot_handlers :
    onGameReset sampleState noPositionSnapshot = .raised ⟨[], []⟩ ∧
    onCurrentPlayers sampleState noPositionSnapshot = .raised ⟨[], []⟩ ∧
    onState ⟨[], []⟩ noPositionSnapshot = ⟨[(8, ⟨1, 2, 1, 2, some 9, some 0⟩)], []⟩ ∧
    onNewPlayer ⟨[], []⟩ (some ⟨7, none, some 6, some 1⟩) = ⟨[], []⟩ := by
  decide

end Client
